import Mathlib

set_option maxHeartbeats 1000000

/-! Shallow embedding of `src/lib/failure-detector.js` (the SWIM failure
detector of Paker30/swim-js), together with proofs of the specification
claims about it.

JavaScript timers and closures are defunctionalized:
* `setTimeout` allocates a `Timer` carrying a fresh handle, an absolute
  deadline (current virtual time plus the delay) and a `TimerAction`
  describing the body of the scheduled closure.
* the two completion callbacks stored in `seqToCallback` become the two
  constructors of `Callback`, carrying exactly the data the JS closures
  capture (`pingReqAckReceiveCallback` captures its sequence and the round
  suspicion-timer handle; `pingAckReceiveCallback` of `onPingReq` captures
  its sequence, the original request sequence and the reply host).
* the event loop is a small-step function `step` driven by an external
  `Event` (a timer firing, a message arriving, `start`/`stop` being
  invoked).  A one-shot timer may fire only once virtual time has reached
  its deadline; repeating `setInterval` handles and `setImmediate` handles
  are kept in separate lists, as in Node they are distinct from timeouts.
* `process.nextTick(callback)` in `onAck` runs the callback before any
  further event can be processed, so it is modeled as running the callback
  immediately after `clearSeq`.
* `emit(Suspect, member)` appends to `suspects`; the handle of the emitting
  suspicion timer is recorded next to the member purely as provenance (the
  JS signal carries only the member), so that per-round emission counts can
  be stated.  The observable signal list is `suspects.map Prod.snd`.
* the three `EventEmitter` handler registrations of `start` are modeled by
  the registration count `listeners` (the three handlers are always
  registered and removed together); each inbound message runs its handler
  once per registration, as `EventEmitter` does.
* the membership collaborator is external: the members returned by
  `membership.next()` and `membership.random(k)` are inputs of the events
  that consume them.
-/

namespace Swim

structure Member where
  host : String
  deriving DecidableEq, Repr

inductive TimerAction
  | suspicion (member : Member)
  | pingExpiry (seqv : Nat) (member : Member)
  | clearExpiry (seqv : Nat)
  deriving DecidableEq, Repr

structure Timer where
  id : Nat
  deadline : Nat
  action : TimerAction
  deriving DecidableEq, Repr

inductive Callback
  | relayAck (seqv : Nat) (suspTimer : Nat)
  | onBehalfAck (seqv : Nat) (reqSeq : Nat) (replyHost : String)
  deriving DecidableEq, Repr

inductive Message
  | ping (seqv : Nat) (host : String)
  | pingReqM (seqv : Nat) (host : String) (destination : String)
  | ack (seqv : Nat) (host : Option String)
  deriving DecidableEq, Repr

@[ext]
structure FDState where
  interval : Nat
  pingTimeout : Nat
  pingReqTimeout : Nat
  pingReqGroupSize : Nat
  localHost : String
  seq : Nat
  seqToTimeout : List (Nat × Nat)
  seqToCallback : List (Nat × Callback)
  tickHandle : Option Nat
  timers : List Timer
  intervals : List (Nat × Nat)
  immediates : List Nat
  listeners : Nat
  nextId : Nat
  now : Nat
  outbox : List (Message × String)
  suspects : List (Nat × Member)
  deriving DecidableEq, Repr

/-- Association-list lookup, JS `obj[k]` (yielding `undefined` as `none`). -/
def lookupA {α : Type} (l : List (Nat × α)) (k : Nat) : Option α :=
  (l.find? (fun p => p.1 == k)).map Prod.snd

/-- Association-list deletion, JS `delete obj[k]`. -/
def eraseA {α : Type} (l : List (Nat × α)) (k : Nat) : List (Nat × α) :=
  l.filter (fun p => p.1 != k)

/-- Association-list assignment, JS `obj[k] = v`. -/
def insertA {α : Type} (l : List (Nat × α)) (k : Nat) (v : α) : List (Nat × α) :=
  (k, v) :: eraseA l k

/-- `this.swim.net.sendMessage(msg, destinationHost)`: fire-and-forget. -/
def sendMessage (st : FDState) (msg : Message) (dest : String) : FDState :=
  { st with outbox := st.outbox ++ [(msg, dest)] }

/-- `FailureDetector.prototype.clearSeq`: `clearTimeout(this.seqToTimeout[seq])`
(a no-op on `undefined`), then `delete this.seqToCallback[seq]` and
`delete this.seqToTimeout[seq]`. -/
def clearSeq (st : FDState) (s : Nat) : FDState :=
  { st with
    timers := match lookupA st.seqToTimeout s with
              | none => st.timers
              | some i => st.timers.filter (fun t => t.id != i),
    seqToTimeout := eraseA st.seqToTimeout s,
    seqToCallback := eraseA st.seqToCallback s }

/-- `FailureDetector.prototype.pingMember(member)`: no-op without a member,
otherwise `seq = this.seq; this.seq += 1`, arm `receiveTimeout` (which does
`clearSeq(seq); pingReq(member)`) after `pingTimeout`, store its handle at
`seqToTimeout[seq]`, and send `Ping {seq, host: this.local}` to
`member.host`. -/
def pingMember (st : FDState) (member : Option Member) : FDState :=
  match member with
  | none => st
  | some m =>
      { st with
        seq := st.seq + 1,
        timers := st.timers ++
          [⟨st.nextId, st.now + st.pingTimeout, TimerAction.pingExpiry st.seq m⟩],
        nextId := st.nextId + 1,
        seqToTimeout := insertA st.seqToTimeout st.seq st.nextId,
        outbox := st.outbox ++ [(Message.ping st.seq st.localHost, m.host)] }

/-- `FailureDetector.prototype.pingReqThroughMember(member, relayMember, callback)`:
allocate `seq`, arm `receiveTimeout` (just `clearSeq(seq)`) after
`pingReqTimeout`, store `pingReqAckReceiveCallback` (which does
`clearSeq(seq)` then `callback()`, i.e. `clearTimeout` of the round's
suspicion timer handle `suspTimer`), and send
`PingReq {seq, host: this.local, destination: member.host}` to
`relayMember.host`. -/
def pingReqThroughMember (st : FDState) (member relayMember : Member)
    (suspTimer : Nat) : FDState :=
  { st with
    seq := st.seq + 1,
    timers := st.timers ++
      [⟨st.nextId, st.now + st.pingReqTimeout, TimerAction.clearExpiry st.seq⟩],
    nextId := st.nextId + 1,
    seqToTimeout := insertA st.seqToTimeout st.seq st.nextId,
    seqToCallback := insertA st.seqToCallback st.seq
      (Callback.relayAck st.seq suspTimer),
    outbox := st.outbox ++
      [(Message.pingReqM st.seq st.localHost member.host, relayMember.host)] }

/-- The `timeout = setTimeout(function pingReqTimeout() {...emit Suspect...},
self.pingReqTimeout)` line of `pingReq`: arms the round-level suspicion
timer.  Its handle `st.nextId` is only captured by the relay-leg callbacks;
it is NOT recorded in `seqToTimeout`. -/
def armSuspicion (st : FDState) (member : Member) : FDState :=
  { st with
    timers := st.timers ++
      [⟨st.nextId, st.now + st.pingReqTimeout, TimerAction.suspicion member⟩],
    nextId := st.nextId + 1 }

/-- The `relayMembers.forEach(function pingThrough(relayMember) {...})` loop
of `pingReq`: one relay transaction per relay member, each capturing the
suspicion-timer handle `suspTimer`. -/
def legsFold (ms : List Member) (member : Member) (suspTimer : Nat)
    (st : FDState) : FDState :=
  ms.foldl (fun acc r => pingReqThroughMember acc member r suspTimer) st

/-- `FailureDetector.prototype.pingReq(member)`: `relayMembers` is what
`membership.random(pingReqGroupSize)` returned (external collaborator,
hence a parameter).  If it is empty, return; otherwise arm the suspicion
timer, then issue one relay transaction per relay member. -/
def pingReq (st : FDState) (member : Member) (relayMembers : List Member) :
    FDState :=
  if relayMembers.length = 0 then st
  else legsFold relayMembers member st.nextId (armSuspicion st member)

/-- Body of a fired `setTimeout` closure.  `tid` is the handle of the timer
that fired (recorded as provenance for `Suspect` emissions); `relays` is
what `membership.random` returns if the body calls `pingReq`. -/
def runTimerAction (st : FDState) (tid : Nat) (a : TimerAction)
    (relays : List Member) : FDState :=
  match a with
  | TimerAction.suspicion m => { st with suspects := st.suspects ++ [(tid, m)] }
  | TimerAction.pingExpiry s m => pingReq (clearSeq st s) m relays
  | TimerAction.clearExpiry s => clearSeq st s

/-- Invoking a stored completion callback. -/
def runCallback (st : FDState) (cb : Callback) : FDState :=
  match cb with
  | Callback.relayAck s suspTimer =>
      let st1 := clearSeq st s
      { st1 with timers := st1.timers.filter (fun t => t.id != suspTimer) }
  | Callback.onBehalfAck s reqSeq replyHost =>
      sendMessage (clearSeq st s) (Message.ack reqSeq none) replyHost

/-- `FailureDetector.prototype.onPing(data, host)`: reply with
`Ack {seq: data.seq, host: this.local}` to the transport-level source. -/
def onPing (st : FDState) (dataSeq : Nat) (host : String) : FDState :=
  sendMessage st (Message.ack dataSeq (some st.localHost)) host

/-- `FailureDetector.prototype.onPingReq(data, host)`: allocate `seq`, arm
`receiveTimeout` (just `clearSeq(seq)`) after `pingTimeout`, store
`pingAckReceiveCallback` (which does `clearSeq(seq)` then sends
`Ack {seq: data.seq}` back to `host`), and send
`Ping {seq, host: data.destination}` to `data.destination`.  (`data.host`
is never read by the handler, so it is not a parameter here.) -/
def onPingReq (st : FDState) (dataSeq : Nat) (dataDest : String)
    (host : String) : FDState :=
  { st with
    seq := st.seq + 1,
    timers := st.timers ++
      [⟨st.nextId, st.now + st.pingTimeout, TimerAction.clearExpiry st.seq⟩],
    nextId := st.nextId + 1,
    seqToTimeout := insertA st.seqToTimeout st.seq st.nextId,
    seqToCallback := insertA st.seqToCallback st.seq
      (Callback.onBehalfAck st.seq dataSeq host),
    outbox := st.outbox ++ [(Message.ping st.seq dataDest, dataDest)] }

/-- `FailureDetector.prototype.onAck(data)`: look the callback up, schedule
it with `process.nextTick` if present, then `clearSeq(data.seq)`.  The
deferred callback runs before any further event, hence directly after
`clearSeq` here. -/
def onAck (st : FDState) (dataSeq : Nat) : FDState :=
  match lookupA st.seqToCallback dataSeq with
  | none => clearSeq st dataSeq
  | some cb => runCallback (clearSeq st dataSeq) cb

/-- `FailureDetector.prototype.tick`: `setImmediate(this.ping.bind(this))`
and `this.tickHandle = setInterval(this.ping.bind(this), this.interval)`. -/
def tick (st : FDState) : FDState :=
  { st with
    immediates := st.immediates ++ [st.nextId],
    intervals := st.intervals ++ [(st.nextId + 1, st.interval)],
    tickHandle := some (st.nextId + 1),
    nextId := st.nextId + 2 }

/-- `FailureDetector.prototype.start`: register the three inbound handlers,
then `tick()`. -/
def start (st : FDState) : FDState :=
  tick { st with listeners := st.listeners + 1 }

/-- `FailureDetector.prototype.stop`: `clearInterval(this.tickHandle)`,
unset it, remove the three handlers, then for every key of `seqToTimeout`
clear its timer and delete it, and delete every key of `seqToCallback`.
Note: only handles recorded in `seqToTimeout` are cleared; pending
`setImmediate` handles and suspicion-timer handles are not. -/
def stop (st : FDState) : FDState :=
  { st with
    intervals := match st.tickHandle with
                 | none => st.intervals
                 | some i => st.intervals.filter (fun p => p.1 != i),
    tickHandle := none,
    listeners := st.listeners - 1,
    timers := st.timers.filter
      (fun t => !(st.seqToTimeout.any (fun p => p.2 == t.id))),
    seqToTimeout := [],
    seqToCallback := [] }

/-- Run a state transformer once per handler registration, as
`EventEmitter.emit` runs a handler once per `on` registration. -/
def applyN (n : Nat) (f : FDState → FDState) (st : FDState) : FDState :=
  match n with
  | 0 => st
  | k + 1 => applyN k f (f st)

/-- External events driving the detector: virtual time passing, timer
handles firing, inbound messages, and lifecycle calls.  Members carried by
events are the external membership collaborator's answers. -/
inductive Event
  | advance (d : Nat)
  | fire (id : Nat) (relays : List Member)
  | intervalFire (id : Nat) (target : Option Member)
  | immediateFire (id : Nat) (target : Option Member)
  | recvPing (seqv : Nat) (host : String)
  | recvPingReq (seqv : Nat) (dest : String) (host : String)
  | recvAck (seqv : Nat)
  | startEv
  | stopEv
  deriving DecidableEq, Repr

/-- One step of the single-threaded event loop. -/
def step (st : FDState) (e : Event) : FDState :=
  match e with
  | Event.advance d => { st with now := st.now + d }
  | Event.fire i relays =>
      match st.timers.find? (fun t => t.id == i) with
      | none => st
      | some t =>
          if t.deadline ≤ st.now then
            runTimerAction
              { st with timers := st.timers.filter (fun u => u.id != i) }
              i t.action relays
          else st
  | Event.intervalFire i target =>
      if st.intervals.any (fun p => p.1 == i) then pingMember st target else st
  | Event.immediateFire i target =>
      if st.immediates.contains i then
        pingMember { st with immediates := st.immediates.filter (fun j => j != i) }
          target
      else st
  | Event.recvPing s h => applyN st.listeners (fun acc => onPing acc s h) st
  | Event.recvPingReq s d h =>
      applyN st.listeners (fun acc => onPingReq acc s d h) st
  | Event.recvAck s => applyN st.listeners (fun acc => onAck acc s) st
  | Event.startEv => start st
  | Event.stopEv => stop st

def run (st : FDState) (evs : List Event) : FDState :=
  evs.foldl step st

/-- How many `Suspect` signals the suspicion timer with handle `tid` has
emitted. -/
def countTid (tid : Nat) (l : List (Nat × Member)) : Nat :=
  l.countP (fun p => p.1 == tid)

/-- `FailureDetector.Default`. -/
def defaultInterval : Nat := 20
def defaultPingTimeout : Nat := 4
def defaultPingReqTimeout : Nat := 12
def defaultPingReqGroupSize : Nat := 3

/-- Constructor options (`opts`); a missing numeric option is `none`. -/
structure FDOpts where
  interval : Option Nat
  pingTimeout : Option Nat
  pingReqTimeout : Option Nat
  pingReqGroupSize : Option Nat
  debugIdentifier : String
  deriving DecidableEq, Repr

/-- JS `opts.x || d` on numbers: `undefined` and `0` are falsy. -/
def orDefault (o : Option Nat) (d : Nat) : Nat :=
  match o with
  | none => d
  | some v => if v = 0 then d else v

/-- `new FailureDetector(opts)`. -/
def mkFailureDetector (opts : FDOpts) : FDState :=
  { interval := orDefault opts.interval defaultInterval,
    pingTimeout := orDefault opts.pingTimeout defaultPingTimeout,
    pingReqTimeout := orDefault opts.pingReqTimeout defaultPingReqTimeout,
    pingReqGroupSize := orDefault opts.pingReqGroupSize defaultPingReqGroupSize,
    localHost := opts.debugIdentifier,
    seq := 0,
    seqToTimeout := [],
    seqToCallback := [],
    tickHandle := none,
    timers := [],
    intervals := [],
    immediates := [],
    listeners := 0,
    nextId := 0,
    now := 0,
    outbox := [],
    suspects := [] }

/-- Does this callback capture (and on invocation clear) timer handle `t`? -/
def capIs (cb : Callback) (t : Nat) : Bool :=
  match cb with
  | Callback.relayAck _ s => s == t
  | Callback.onBehalfAck _ _ _ => false

/-- Is every timer handle captured by this callback below `n`? -/
def capBelow (cb : Callback) (n : Nat) : Bool :=
  match cb with
  | Callback.relayAck _ s => s < n
  | Callback.onBehalfAck _ _ _ => true

/-- Well-formedness of a detector state, true of the constructed state and
preserved by every event: timer handles are distinct and below the
allocator `nextId` (as are the handles recorded in `seqToTimeout`, the
handles captured by callbacks and the handles recorded next to emitted
suspicions), correlation keys are distinct, and every correlation key is
below the sequence counter. -/
def WF (st : FDState) : Prop :=
  (st.timers.map Timer.id).Nodup ∧
  (∀ t ∈ st.timers, t.id < st.nextId) ∧
  (∀ p ∈ st.seqToTimeout, p.2 < st.nextId) ∧
  (∀ p ∈ st.seqToCallback, capBelow p.2 st.nextId = true) ∧
  ((st.seqToTimeout.map Prod.fst).Nodup ∧
   (st.seqToCallback.map Prod.fst).Nodup) ∧
  ((∀ p ∈ st.seqToTimeout, p.1 < st.seq) ∧
   (∀ p ∈ st.seqToCallback, p.1 < st.seq)) ∧
  (∀ p ∈ st.suspects, p.1 < st.nextId)

/-! Association-list lemmas. -/

theorem mem_eraseA {α : Type} {l : List (Nat × α)} {k : Nat} {p : Nat × α} :
    p ∈ eraseA l k ↔ p ∈ l ∧ p.1 ≠ k := by
  simp [eraseA, List.mem_filter]

theorem eraseA_sublist {α : Type} (l : List (Nat × α)) (k : Nat) :
    (eraseA l k).Sublist l :=
  List.filter_sublist l

theorem lookupA_eq_none_iff {α : Type} {l : List (Nat × α)} {k : Nat} :
    lookupA l k = none ↔ ∀ p ∈ l, p.1 ≠ k := by
  simp [lookupA, List.find?_eq_none]

theorem lookupA_eraseA_self {α : Type} (l : List (Nat × α)) (k : Nat) :
    lookupA (eraseA l k) k = none := by
  rw [lookupA_eq_none_iff]
  intro p hp
  exact (mem_eraseA.mp hp).2

theorem eraseA_eraseA {α : Type} (l : List (Nat × α)) (k : Nat) :
    eraseA (eraseA l k) k = eraseA l k := by
  simp [eraseA, List.filter_filter]

theorem lookupA_insertA_self {α : Type} (l : List (Nat × α)) (k : Nat) (v : α) :
    lookupA (insertA l k v) k = some v := by
  unfold lookupA insertA
  rw [List.find?_cons_of_pos]
  · rfl
  · simp

theorem lookupA_mem {α : Type} {l : List (Nat × α)} {k : Nat} {v : α}
    (h : lookupA l k = some v) : (k, v) ∈ l := by
  unfold lookupA at h
  rw [Option.map_eq_some'] at h
  obtain ⟨p, hf, hs⟩ := h
  have hmem := List.mem_of_find?_eq_some hf
  have hk := List.find?_some hf
  have hk1 : p.1 = k := by simpa using hk
  have : p = (k, v) := by
    cases p
    simp_all
  rw [this] at hmem
  exact hmem

theorem lookupA_of_mem_nodup {α : Type} {l : List (Nat × α)} {k : Nat} {v : α}
    (h : (k, v) ∈ l) (hn : (l.map Prod.fst).Nodup) : lookupA l k = some v := by
  induction l with
  | nil => cases h
  | cons a tl ih =>
      rw [List.map_cons, List.nodup_cons] at hn
      rcases List.mem_cons.mp h with heq | htl
      · subst heq
        unfold lookupA
        rw [List.find?_cons_of_pos]
        · rfl
        · simp
      · have hne : a.1 ≠ k := by
          intro hak
          exact hn.1 (hak ▸ List.mem_map_of_mem Prod.fst htl)
        unfold lookupA
        rw [List.find?_cons_of_neg]
        · exact ih htl hn.2
        · simp [hne]

/-! Projection and idempotence facts for `clearSeq` and `onAck`. -/

theorem clearSeq_outbox (st : FDState) (s : Nat) :
    (clearSeq st s).outbox = st.outbox := rfl

theorem clearSeq_idem (st : FDState) (s : Nat) :
    clearSeq (clearSeq st s) s = clearSeq st s := by
  unfold clearSeq
  simp [lookupA_eraseA_self, eraseA_eraseA]

theorem onAck_of_none {st : FDState} {s : Nat}
    (h : lookupA st.seqToCallback s = none) : onAck st s = clearSeq st s := by
  unfold onAck
  rw [h]

theorem lookupA_eraseA_of_none {α : Type} {l : List (Nat × α)} {s : Nat}
    (k : Nat) (h : lookupA l s = none) : lookupA (eraseA l k) s = none := by
  rw [lookupA_eq_none_iff] at h ⊢
  intro p hp
  exact h p (mem_eraseA.mp hp).1

theorem onAck_callback_gone (st : FDState) (s : Nat) :
    lookupA (onAck st s).seqToCallback s = none := by
  cases h : lookupA st.seqToCallback s with
  | none =>
      rw [onAck_of_none h]
      exact lookupA_eraseA_self _ _
  | some cb =>
      unfold onAck
      rw [h]
      cases cb with
      | relayAck s2 t =>
          show lookupA (eraseA (eraseA st.seqToCallback s) s2) s = none
          exact lookupA_eraseA_of_none s2 (lookupA_eraseA_self _ _)
      | onBehalfAck s2 rq rh =>
          show lookupA (eraseA (eraseA st.seqToCallback s) s2) s = none
          exact lookupA_eraseA_of_none s2 (lookupA_eraseA_self _ _)

/-! Concrete inputs used by witnesses and counterexamples. -/

def hostA : String := "a"
def hostM : String := "m"
def hostR : String := "r"
def hostDst : String := "dst"
def hostRelay : String := "relay"

def memberM : Member := ⟨hostM⟩
def memberR : Member := ⟨hostR⟩

def optsNone : FDOpts :=
  { interval := none, pingTimeout := none, pingReqTimeout := none,
    pingReqGroupSize := none, debugIdentifier := hostA }

def optsZero : FDOpts :=
  { interval := some 0, pingTimeout := some 0, pingReqTimeout := some 0,
    pingReqGroupSize := some 0, debugIdentifier := hostA }

def st0 : FDState := mkFailureDetector optsNone

/-- C4: the on-behalf relay handler `onPingReq` registers for its freshly
allocated sequence `s3 = st.seq` a completion callback that, when the Ack
for its own direct probe arrives (`onAck` at `s3`), sends exactly one Ack
back to the relay-host `h` the PingReq came from, and that Ack carries the
original request sequence `dataSeq`, not the newly allocated `s3`; the
callback is consumed by that delivery, so a repeated Ack for `s3` sends
nothing further. -/
theorem onPingReq_forwards_original_seq (st : FDState) (dataSeq : Nat)
    (dataDest h : String) :
    ((st.seq, Callback.onBehalfAck st.seq dataSeq h)
        ∈ (onPingReq st dataSeq dataDest h).seqToCallback)
    ∧ ((onAck (onPingReq st dataSeq dataDest h) st.seq).outbox
        = (onPingReq st dataSeq dataDest h).outbox
          ++ [(Message.ack dataSeq none, h)])
    ∧ (lookupA (onAck (onPingReq st dataSeq dataDest h) st.seq).seqToCallback
        st.seq = none)
    ∧ ((onAck (onAck (onPingReq st dataSeq dataDest h) st.seq) st.seq).outbox
        = (onAck (onPingReq st dataSeq dataDest h) st.seq).outbox) := by
  have hlk : lookupA (onPingReq st dataSeq dataDest h).seqToCallback st.seq
      = some (Callback.onBehalfAck st.seq dataSeq h) :=
    lookupA_insertA_self _ _ _
  refine ⟨List.mem_cons_self _ _, ?_, onAck_callback_gone _ _, ?_⟩
  · unfold onAck
    rw [hlk]
    rfl
  · rw [onAck_of_none (onAck_callback_gone _ _)]
    rfl

/-- C5: `clearSeq` is idempotent and total: clearing an already-cleared (or
never-allocated) sequence leaves the whole state unchanged; an Ack arriving
for a cleared sequence invokes no callback and has no observable effect
(`onAck` then equals the no-op `clearSeq`); and after any `onAck` the
callback entry for that sequence is gone, so a completion callback fires at
most once. -/
theorem clearSeq_idempotent_acks_inert (st : FDState) (s : Nat) :
    clearSeq (clearSeq st s) s = clearSeq st s
    ∧ onAck (clearSeq st s) s = clearSeq st s
    ∧ lookupA (onAck st s).seqToCallback s = none := by
  refine ⟨clearSeq_idem st s, ?_, onAck_callback_gone st s⟩
  have hn : lookupA (clearSeq st s).seqToCallback s = none :=
    lookupA_eraseA_self _ _
  rw [onAck_of_none hn]
  exact clearSeq_idem st s

/-- C7: `pingReq` with zero relay peers returned by the membership
collaborator is a complete no-op: the state is unchanged, so no suspicion
timer is created, no relay transaction is issued, no message is sent, and
no `Suspect` signal is ever emitted for that escalation. -/
theorem pingReq_zero_relays_noop (st : FDState) (member : Member) :
    pingReq st member [] = st
    ∧ (pingReq st member []).timers = st.timers
    ∧ (pingReq st member []).outbox = st.outbox
    ∧ (pingReq st member []).suspects = st.suspects := by
  refine ⟨rfl, rfl, rfl, rfl⟩

/-- C8 counterexample: the claim says every Ping this detector sends
carries the sender's identity in `host`.  On the concrete constructed
detector (local identity `hostA`), the on-behalf relay handler sends a Ping
whose `host` field is the ultimate destination `hostDst`, which differs
from the local identity `hostA`.  (`data.host = destination` on line 190 of
`failure-detector.js`.) -/
theorem onPingReq_ping_host_not_sender_cex :
    (onPingReq st0 5 hostDst hostRelay).outbox
      = [(Message.ping 0 hostDst, hostDst)]
    ∧ st0.localHost = hostA
    ∧ hostDst ≠ hostA := by
  refine ⟨rfl, rfl, by decide⟩

/-- C8 amended: the direct probe sent by `pingMember` carries the local
identity in the Ping's `host` field, but the Ping the on-behalf relay
handler `onPingReq` sends to the ultimate destination carries the
destination itself (`data.destination`) in `host`, not the local
identity. -/
theorem ping_host_fields (st : FDState) (m : Member) (dataSeq : Nat)
    (dataDest h : String) :
    (pingMember st (some m)).outbox
      = st.outbox ++ [(Message.ping st.seq st.localHost, m.host)]
    ∧ (onPingReq st dataSeq dataDest h).outbox
      = st.outbox ++ [(Message.ping st.seq dataDest, dataDest)] := by
  exact ⟨rfl, rfl⟩

/-- C9 counterexample: the claim says every supplied configuration value,
including `0`, overrides the default.  Supplying `0` for all four numeric
options yields the defaults `20 / 4 / 12 / 3`, not `0`, because the
constructor uses `opts.x || default` and `0` is falsy. -/
theorem config_zero_not_override_cex :
    (mkFailureDetector optsZero).interval = 20
    ∧ (mkFailureDetector optsZero).pingTimeout = 4
    ∧ (mkFailureDetector optsZero).pingReqTimeout = 12
    ∧ (mkFailureDetector optsZero).pingReqGroupSize = 3
    ∧ (mkFailureDetector optsZero).interval ≠ 0 := by
  refine ⟨rfl, rfl, rfl, rfl, by decide⟩

/-- C9 amended: a supplied nonzero configuration value overrides the
corresponding default; an absent option, or a supplied `0` (falsy under the
constructor's `||`), falls back to the default `interval = 20`,
`pingTimeout = 4`, `pingReqTimeout = 12`, `pingReqGroupSize = 3`. -/
theorem config_override_nonzero (o : FDOpts) (v d : Nat) (hv : v ≠ 0) :
    orDefault (some v) d = v
    ∧ orDefault none d = d
    ∧ orDefault (some 0) d = d
    ∧ (mkFailureDetector o).interval = orDefault o.interval defaultInterval
    ∧ (mkFailureDetector o).pingTimeout
        = orDefault o.pingTimeout defaultPingTimeout
    ∧ (mkFailureDetector o).pingReqTimeout
        = orDefault o.pingReqTimeout defaultPingReqTimeout
    ∧ (mkFailureDetector o).pingReqGroupSize
        = orDefault o.pingReqGroupSize defaultPingReqGroupSize := by
  refine ⟨?_, rfl, rfl, rfl, rfl, rfl, rfl⟩
  simp [orDefault, hv]

/-- Witness for the amended C9 theorem at `v = 5`, `d = 7`, `o = optsNone`. -/
theorem config_override_nonzero_witness :
    orDefault (some 5) 7 = 5
    ∧ orDefault none 7 = 7
    ∧ orDefault (some 0) 7 = 7
    ∧ (mkFailureDetector optsNone).interval
        = orDefault optsNone.interval defaultInterval
    ∧ (mkFailureDetector optsNone).pingTimeout
        = orDefault optsNone.pingTimeout defaultPingTimeout
    ∧ (mkFailureDetector optsNone).pingReqTimeout
        = orDefault optsNone.pingReqTimeout defaultPingReqTimeout
    ∧ (mkFailureDetector optsNone).pingReqGroupSize
        = orDefault optsNone.pingReqGroupSize defaultPingReqGroupSize :=
  config_override_nonzero optsNone 5 7 (by decide)

/-- C10: `start` is not idempotent.  After `start; start`, the handlers are
registered twice (`listeners` went up by two) and `tickHandle` was
overwritten by the second repeating interval, so `stop` removes only that
second interval and one handler registration: the first interval
(handle `st.nextId + 1`) survives, a further `stop` cannot remove it
(`tickHandle` is already `none`), and when it fires it still sends a Ping
probe. -/
theorem start_twice_leaks_interval (st : FDState) (m : Member) :
    (start (start st)).listeners = st.listeners + 2
    ∧ (stop (start (start st))).listeners = st.listeners + 1
    ∧ (st.nextId + 1, st.interval) ∈ (stop (start (start st))).intervals
    ∧ (stop (start (start st))).tickHandle = none
    ∧ (stop (stop (start (start st)))).intervals
        = (stop (start (start st))).intervals
    ∧ (step (stop (start (start st)))
          (Event.intervalFire (st.nextId + 1) (some m))).outbox
        = st.outbox ++ [(Message.ping st.seq st.localHost, m.host)] := by
  have hmem : (st.nextId + 1, st.interval) ∈ (stop (start (start st))).intervals := by
    show (st.nextId + 1, st.interval) ∈
      ((st.intervals ++ [(st.nextId + 1, st.interval)])
          ++ [(st.nextId + 2 + 1, st.interval)]).filter
        (fun p => p.1 != st.nextId + 2 + 1)
    rw [List.mem_filter]
    constructor
    · simp
    · simp only [bne_iff_ne]
      omega
  refine ⟨rfl, rfl, hmem, rfl, rfl, ?_⟩
  have hany : ((stop (start (start st))).intervals.any
      (fun p => p.1 == st.nextId + 1)) = true := by
    rw [List.any_eq_true]
    exact ⟨(st.nextId + 1, st.interval), hmem, by simp⟩
  show (step (stop (start (start st)))
      (Event.intervalFire (st.nextId + 1) (some m))).outbox
    = st.outbox ++ [(Message.ping st.seq st.localHost, m.host)]
  simp only [step]
  rw [if_pos hany]
  rfl

/-! Effect characterization of the relay fan-out loop. -/

theorem legsFold_nil (m : Member) (t0 : Nat) (st : FDState) :
    legsFold [] m t0 st = st := rfl

theorem legsFold_cons (r0 : Member) (tl : List Member) (m : Member) (t0 : Nat)
    (st : FDState) :
    legsFold (r0 :: tl) m t0 st
      = legsFold tl m t0 (pingReqThroughMember st m r0 t0) := rfl

theorem legsFold_facts (ms : List Member) (m : Member) (t0 : Nat)
    (st : FDState) :
    (legsFold ms m t0 st).now = st.now
    ∧ (legsFold ms m t0 st).suspects = st.suspects
    ∧ (legsFold ms m t0 st).listeners = st.listeners
    ∧ (legsFold ms m t0 st).intervals = st.intervals
    ∧ (legsFold ms m t0 st).immediates = st.immediates
    ∧ (legsFold ms m t0 st).tickHandle = st.tickHandle
    ∧ st.nextId ≤ (legsFold ms m t0 st).nextId
    ∧ (legsFold ms m t0 st).seq = st.seq + ms.length
    ∧ (∀ t ∈ st.timers, t ∈ (legsFold ms m t0 st).timers)
    ∧ (∀ t ∈ (legsFold ms m t0 st).timers,
        t ∈ st.timers
        ∨ (st.nextId ≤ t.id ∧ ∃ s, t.action = TimerAction.clearExpiry s))
    ∧ (∀ p ∈ (legsFold ms m t0 st).seqToTimeout,
        p ∈ st.seqToTimeout ∨ (st.nextId ≤ p.2 ∧ st.seq ≤ p.1))
    ∧ (∀ p ∈ (legsFold ms m t0 st).seqToCallback,
        p ∈ st.seqToCallback
        ∨ (st.seq ≤ p.1 ∧ p.2 = Callback.relayAck p.1 t0))
    ∧ (∃ l2, (legsFold ms m t0 st).outbox = st.outbox ++ l2
        ∧ ∀ x ∈ l2, ∃ a b c d2, x = (Message.pingReqM a b c, d2)) := by
  induction ms generalizing st with
  | nil =>
      refine ⟨rfl, rfl, rfl, rfl, rfl, rfl, Nat.le_refl _, by simp [legsFold],
        fun t ht => ht, fun t ht => Or.inl ht, fun p hp => Or.inl hp,
        fun p hp => Or.inl hp, ⟨[], by simp [legsFold], by simp⟩⟩
  | cons r0 tl ih =>
      rw [legsFold_cons]
      obtain ⟨hA, hB, hC, hD, hE, hF, hG, hH, hI, hJ, hK, hL, hM⟩ :=
        ih (pingReqThroughMember st m r0 t0)
      refine ⟨hA, hB, hC, hD, hE, hF, ?_, ?_, ?_, ?_, ?_, ?_, ?_⟩
      · exact Nat.le_trans (Nat.le_succ _) hG
      · rw [hH]
        show st.seq + 1 + tl.length = st.seq + (tl.length + 1)
        omega
      · intro t ht
        exact hI t (List.mem_append_left _ ht)
      · intro t ht
        rcases hJ t ht with hold | ⟨hge, hs⟩
        · rcases List.mem_append.mp hold with h1 | h1
          · exact Or.inl h1
          · rcases List.mem_singleton.mp h1 with rfl
            exact Or.inr ⟨Nat.le_refl _, st.seq, rfl⟩
        · exact Or.inr ⟨Nat.le_trans (Nat.le_succ _) hge, hs⟩
      · intro p hp
        rcases hK p hp with hold | ⟨h1, h2⟩
        · rcases List.mem_cons.mp hold with rfl | h1
          · exact Or.inr ⟨Nat.le_refl _, Nat.le_refl _⟩
          · exact Or.inl (mem_eraseA.mp h1).1
        · exact Or.inr ⟨Nat.le_trans (Nat.le_succ _) h1,
            Nat.le_trans (Nat.le_succ _) h2⟩
      · intro p hp
        rcases hL p hp with hold | ⟨h1, h2⟩
        · rcases List.mem_cons.mp hold with rfl | h1
          · exact Or.inr ⟨Nat.le_refl _, rfl⟩
          · exact Or.inl (mem_eraseA.mp h1).1
        · exact Or.inr ⟨Nat.le_trans (Nat.le_succ _) h1, h2⟩
      · obtain ⟨l2, hl2, hall⟩ := hM
        refine ⟨(Message.pingReqM st.seq st.localHost m.host, r0.host) :: l2, ?_, ?_⟩
        · rw [hl2]
          show (st.outbox ++ [(Message.pingReqM st.seq st.localHost m.host, r0.host)])
              ++ l2 = _
          simp
        · intro x hx
          rcases List.mem_cons.mp hx with rfl | h1
          · exact ⟨st.seq, st.localHost, m.host, r0.host, rfl⟩
          · exact hall x h1

/-! Preservation of well-formedness by every operation and event. -/

theorem capBelow_mono {cb : Callback} {n n2 : Nat}
    (h : capBelow cb n = true) (hle : n ≤ n2) : capBelow cb n2 = true := by
  cases cb with
  | relayAck a b =>
      simp only [capBelow, decide_eq_true_eq] at h ⊢
      omega
  | onBehalfAck a b c => rfl

theorem mem_insertA {α : Type} {l : List (Nat × α)} {k : Nat} {v : α}
    {p : Nat × α} :
    p ∈ insertA l k v ↔ p = (k, v) ∨ (p ∈ l ∧ p.1 ≠ k) := by
  simp [insertA, mem_eraseA, List.mem_cons]

theorem keys_nodup_insertA {α : Type} {l : List (Nat × α)} (k : Nat) (v : α)
    (h : (l.map Prod.fst).Nodup) :
    ((insertA l k v).map Prod.fst).Nodup := by
  show (k :: (eraseA l k).map Prod.fst).Nodup
  rw [List.nodup_cons]
  constructor
  · intro hmem
    obtain ⟨p, hp, hpk⟩ := List.mem_map.mp hmem
    exact (mem_eraseA.mp hp).2 hpk
  · exact h.sublist ((eraseA_sublist l k).map Prod.fst)

theorem nodup_ids_append {l : List Timer} {n dl : Nat} {a : TimerAction}
    (h1 : (l.map Timer.id).Nodup) (h2 : ∀ t ∈ l, t.id < n) :
    (((l ++ [(⟨n, dl, a⟩ : Timer)]).map Timer.id)).Nodup := by
  rw [List.map_append, List.nodup_append]
  refine ⟨h1, List.nodup_singleton _, ?_⟩
  intro x hx hx2
  obtain ⟨t, ht, rfl⟩ := List.mem_map.mp hx
  have h3 : t.id = n := by simpa using hx2
  have := h2 t ht
  omega

theorem WF_shrink {st st2 : FDState}
    (ht : st2.timers.Sublist st.timers)
    (h1 : st2.seqToTimeout.Sublist st.seqToTimeout)
    (h2 : st2.seqToCallback.Sublist st.seqToCallback)
    (h3 : st2.suspects.Sublist st.suspects)
    (hn : st2.nextId = st.nextId) (hs : st2.seq = st.seq)
    (hwf : WF st) : WF st2 := by
  obtain ⟨w1, w2, w3, w4, ⟨w5a, w5b⟩, ⟨w6a, w6b⟩, w7⟩ := hwf
  refine ⟨?_, ?_, ?_, ?_, ⟨?_, ?_⟩, ⟨?_, ?_⟩, ?_⟩
  · exact w1.sublist (ht.map Timer.id)
  · intro t h
    rw [hn]
    exact w2 t (ht.subset h)
  · intro p h
    rw [hn]
    exact w3 p (h1.subset h)
  · intro p h
    rw [hn]
    exact w4 p (h2.subset h)
  · exact w5a.sublist (h1.map Prod.fst)
  · exact w5b.sublist (h2.map Prod.fst)
  · intro p h
    rw [hs]
    exact w6a p (h1.subset h)
  · intro p h
    rw [hs]
    exact w6b p (h2.subset h)
  · intro p h
    rw [hn]
    exact w7 p (h3.subset h)

theorem clearSeq_timers_sublist (st : FDState) (s : Nat) :
    (clearSeq st s).timers.Sublist st.timers := by
  unfold clearSeq
  cases lookupA st.seqToTimeout s with
  | none => exact List.Sublist.refl _
  | some i => exact List.filter_sublist _

theorem WF_clearSeq {st : FDState} (s : Nat) (hwf : WF st) :
    WF (clearSeq st s) :=
  WF_shrink (clearSeq_timers_sublist st s) (eraseA_sublist _ _)
    (eraseA_sublist _ _) (List.Sublist.refl _) rfl rfl hwf

theorem WF_runCallback {st : FDState} (cb : Callback) (hwf : WF st) :
    WF (runCallback st cb) := by
  cases cb with
  | relayAck s t =>
      exact WF_shrink
        ((List.filter_sublist _).trans (clearSeq_timers_sublist st s))
        (eraseA_sublist _ _) (eraseA_sublist _ _) (List.Sublist.refl _)
        rfl rfl hwf
  | onBehalfAck s rq rh => exact WF_clearSeq s hwf

theorem WF_emit {st : FDState} {i : Nat} (m : Member) (hwf : WF st)
    (hi : i < st.nextId) :
    WF { st with suspects := st.suspects ++ [(i, m)] } := by
  obtain ⟨w1, w2, w3, w4, w5, w6, w7⟩ := hwf
  refine ⟨w1, w2, w3, w4, w5, w6, ?_⟩
  intro p hp
  rcases List.mem_append.mp hp with h | h
  · exact w7 p h
  · rcases List.mem_singleton.mp h with rfl
    exact hi

theorem WF_pingMember {st : FDState} (mo : Option Member) (hwf : WF st) :
    WF (pingMember st mo) := by
  cases mo with
  | none => exact hwf
  | some m =>
      obtain ⟨w1, w2, w3, w4, ⟨w5a, w5b⟩, ⟨w6a, w6b⟩, w7⟩ := hwf
      refine ⟨?_, ?_, ?_, ?_, ⟨?_, ?_⟩, ⟨?_, ?_⟩, ?_⟩
      · simp only [pingMember]
        exact nodup_ids_append w1 w2
      · intro t ht
        simp only [pingMember, List.mem_append, List.mem_singleton] at ht ⊢
        rcases ht with h | rfl
        · have := w2 t h
          omega
        · exact Nat.lt_succ_self _
      · intro p hp
        simp only [pingMember] at hp ⊢
        rcases mem_insertA.mp hp with rfl | ⟨h, _⟩
        · exact Nat.lt_succ_self _
        · have := w3 p h
          omega
      · intro p hp
        simp only [pingMember] at hp ⊢
        exact capBelow_mono (w4 p hp) (Nat.le_succ _)
      · simp only [pingMember]
        exact keys_nodup_insertA _ _ w5a
      · simp only [pingMember]
        exact w5b
      · intro p hp
        simp only [pingMember] at hp ⊢
        rcases mem_insertA.mp hp with rfl | ⟨h, _⟩
        · exact Nat.lt_succ_self _
        · have := w6a p h
          omega
      · intro p hp
        simp only [pingMember] at hp ⊢
        have := w6b p hp
        omega
      · intro p hp
        simp only [pingMember] at hp ⊢
        have := w7 p hp
        omega

theorem WF_prtm {st : FDState} (m r : Member) {t0 : Nat} (hwf : WF st)
    (ht0 : t0 < st.nextId) :
    WF (pingReqThroughMember st m r t0) := by
  obtain ⟨w1, w2, w3, w4, ⟨w5a, w5b⟩, ⟨w6a, w6b⟩, w7⟩ := hwf
  refine ⟨?_, ?_, ?_, ?_, ⟨?_, ?_⟩, ⟨?_, ?_⟩, ?_⟩
  · simp only [pingReqThroughMember]
    exact nodup_ids_append w1 w2
  · intro t ht
    simp only [pingReqThroughMember, List.mem_append, List.mem_singleton] at ht ⊢
    rcases ht with h | rfl
    · have := w2 t h
      omega
    · exact Nat.lt_succ_self _
  · intro p hp
    simp only [pingReqThroughMember] at hp ⊢
    rcases mem_insertA.mp hp with rfl | ⟨h, _⟩
    · exact Nat.lt_succ_self _
    · have := w3 p h
      omega
  · intro p hp
    simp only [pingReqThroughMember] at hp ⊢
    rcases mem_insertA.mp hp with rfl | ⟨h, _⟩
    · show capBelow (Callback.relayAck st.seq t0) (st.nextId + 1) = true
      simp only [capBelow, decide_eq_true_eq]
      omega
    · exact capBelow_mono (w4 p h) (Nat.le_succ _)
  · simp only [pingReqThroughMember]
    exact keys_nodup_insertA _ _ w5a
  · simp only [pingReqThroughMember]
    exact keys_nodup_insertA _ _ w5b
  · intro p hp
    simp only [pingReqThroughMember] at hp ⊢
    rcases mem_insertA.mp hp with rfl | ⟨h, _⟩
    · exact Nat.lt_succ_self _
    · have := w6a p h
      omega
  · intro p hp
    simp only [pingReqThroughMember] at hp ⊢
    rcases mem_insertA.mp hp with rfl | ⟨h, _⟩
    · exact Nat.lt_succ_self _
    · have := w6b p h
      omega
  · intro p hp
    simp only [pingReqThroughMember] at hp ⊢
    have := w7 p hp
    omega

theorem WF_onPingReq {st : FDState} (dataSeq : Nat) (dataDest h : String)
    (hwf : WF st) :
    WF (onPingReq st dataSeq dataDest h) := by
  obtain ⟨w1, w2, w3, w4, ⟨w5a, w5b⟩, ⟨w6a, w6b⟩, w7⟩ := hwf
  refine ⟨?_, ?_, ?_, ?_, ⟨?_, ?_⟩, ⟨?_, ?_⟩, ?_⟩
  · simp only [onPingReq]
    exact nodup_ids_append w1 w2
  · intro t ht
    simp only [onPingReq, List.mem_append, List.mem_singleton] at ht ⊢
    rcases ht with h1 | rfl
    · have := w2 t h1
      omega
    · exact Nat.lt_succ_self _
  · intro p hp
    simp only [onPingReq] at hp ⊢
    rcases mem_insertA.mp hp with rfl | ⟨h1, _⟩
    · exact Nat.lt_succ_self _
    · have := w3 p h1
      omega
  · intro p hp
    simp only [onPingReq] at hp ⊢
    rcases mem_insertA.mp hp with rfl | ⟨h1, _⟩
    · rfl
    · exact capBelow_mono (w4 p h1) (Nat.le_succ _)
  · simp only [onPingReq]
    exact keys_nodup_insertA _ _ w5a
  · simp only [onPingReq]
    exact keys_nodup_insertA _ _ w5b
  · intro p hp
    simp only [onPingReq] at hp ⊢
    rcases mem_insertA.mp hp with rfl | ⟨h1, _⟩
    · exact Nat.lt_succ_self _
    · have := w6a p h1
      omega
  · intro p hp
    simp only [onPingReq] at hp ⊢
    rcases mem_insertA.mp hp with rfl | ⟨h1, _⟩
    · exact Nat.lt_succ_self _
    · have := w6b p h1
      omega
  · intro p hp
    simp only [onPingReq] at hp ⊢
    have := w7 p hp
    omega

theorem WF_legsFold (ms : List Member) (m : Member) {t0 : Nat} :
    ∀ st : FDState, WF st → t0 < st.nextId →
      WF (legsFold ms m t0 st) ∧ t0 < (legsFold ms m t0 st).nextId := by
  induction ms with
  | nil => exact fun st hwf ht0 => ⟨hwf, ht0⟩
  | cons r0 tl ih =>
      intro st hwf ht0
      rw [legsFold_cons]
      exact ih (pingReqThroughMember st m r0 t0) (WF_prtm m r0 hwf ht0)
        (Nat.lt_trans ht0 (Nat.lt_succ_self _))

theorem WF_armSuspicion {st : FDState} (m : Member) (hwf : WF st) :
    WF (armSuspicion st m) := by
  obtain ⟨w1, w2, w3, w4, w5, w6, w7⟩ := hwf
  refine ⟨?_, ?_, ?_, ?_, ?_, ?_, ?_⟩
  · simp only [armSuspicion]
    exact nodup_ids_append w1 w2
  · intro t ht
    simp only [armSuspicion, List.mem_append, List.mem_singleton] at ht ⊢
    rcases ht with h | rfl
    · have := w2 t h
      omega
    · exact Nat.lt_succ_self _
  · intro p hp
    simp only [armSuspicion] at hp ⊢
    have := w3 p hp
    omega
  · intro p hp
    simp only [armSuspicion] at hp ⊢
    exact capBelow_mono (w4 p hp) (Nat.le_succ _)
  · simp only [armSuspicion]
    exact w5
  · simp only [armSuspicion]
    exact w6
  · intro p hp
    simp only [armSuspicion] at hp ⊢
    have := w7 p hp
    omega

theorem WF_pingReq {st : FDState} (m : Member) (rs : List Member)
    (hwf : WF st) : WF (pingReq st m rs) := by
  unfold pingReq
  by_cases h : rs.length = 0
  · rw [if_pos h]
    exact hwf
  · rw [if_neg h]
    exact (WF_legsFold rs m (armSuspicion st m) (WF_armSuspicion m hwf)
      (Nat.lt_succ_self _)).1

theorem WF_tick {st : FDState} (hwf : WF st) : WF (tick st) := by
  obtain ⟨w1, w2, w3, w4, w5, w6, w7⟩ := hwf
  refine ⟨?_, ?_, ?_, ?_, ?_, ?_, ?_⟩
  · simp only [tick]
    exact w1
  · intro t ht
    simp only [tick] at ht ⊢
    have := w2 t ht
    omega
  · intro p hp
    simp only [tick] at hp ⊢
    have := w3 p hp
    omega
  · intro p hp
    simp only [tick] at hp ⊢
    exact capBelow_mono (w4 p hp) (by omega)
  · simp only [tick]
    exact w5
  · simp only [tick]
    exact w6
  · intro p hp
    simp only [tick] at hp ⊢
    have := w7 p hp
    omega

theorem WF_start {st : FDState} (hwf : WF st) : WF (start st) :=
  WF_tick hwf

theorem WF_stop {st : FDState} (hwf : WF st) : WF (stop st) :=
  WF_shrink (List.filter_sublist _) (List.nil_sublist _) (List.nil_sublist _)
    (List.Sublist.refl _) rfl rfl hwf

theorem WF_onAck {st : FDState} (s : Nat) (hwf : WF st) : WF (onAck st s) := by
  unfold onAck
  cases lookupA st.seqToCallback s with
  | none => exact WF_clearSeq s hwf
  | some cb => exact WF_runCallback cb (WF_clearSeq s hwf)

theorem WF_applyN (f : FDState → FDState) (hf : ∀ s, WF s → WF (f s)) :
    ∀ (n : Nat) (st : FDState), WF st → WF (applyN n f st) := by
  intro n
  induction n with
  | zero => exact fun st hwf => hwf
  | succ k ih => exact fun st hwf => ih (f st) (hf st hwf)

theorem WF_runTimerAction {st : FDState} (i : Nat) (a : TimerAction)
    (relays : List Member) (hwf : WF st) (hi : i < st.nextId) :
    WF (runTimerAction st i a relays) := by
  cases a with
  | suspicion m => exact WF_emit m hwf hi
  | pingExpiry s m => exact WF_pingReq m relays (WF_clearSeq s hwf)
  | clearExpiry s => exact WF_clearSeq s hwf

theorem WF_step {st : FDState} (e : Event) (hwf : WF st) : WF (step st e) := by
  cases e with
  | advance d => exact hwf
  | fire i relays =>
      show WF (match st.timers.find? (fun t => t.id == i) with
        | none => st
        | some t =>
            if t.deadline ≤ st.now then
              runTimerAction
                { st with timers := st.timers.filter (fun u => u.id != i) }
                i t.action relays
            else st)
      cases hf : st.timers.find? (fun t => t.id == i) with
      | none => exact hwf
      | some t =>
          dsimp only
          by_cases hd : t.deadline ≤ st.now
          · rw [if_pos hd]
            have hmem := List.mem_of_find?_eq_some hf
            have hid : t.id = i := by
              have := List.find?_some hf
              simpa using this
            have hwf2 : WF { st with timers := st.timers.filter (fun u => u.id != i) } :=
              WF_shrink (List.filter_sublist _) (List.Sublist.refl _)
                (List.Sublist.refl _) (List.Sublist.refl _) rfl rfl hwf
            refine WF_runTimerAction i t.action relays hwf2 ?_
            show i < st.nextId
            have := hwf.2.1 t hmem
            omega
          · rw [if_neg hd]
            exact hwf
  | intervalFire i target =>
      show WF (if st.intervals.any (fun p => p.1 == i) then pingMember st target
        else st)
      by_cases h : st.intervals.any (fun p => p.1 == i)
      · rw [if_pos h]
        exact WF_pingMember target hwf
      · rw [if_neg h]
        exact hwf
  | immediateFire i target =>
      show WF (if st.immediates.contains i then
          pingMember { st with immediates := st.immediates.filter (fun j => j != i) }
            target
        else st)
      by_cases h : st.immediates.contains i
      · rw [if_pos h]
        exact WF_pingMember target hwf
      · rw [if_neg h]
        exact hwf
  | recvPing s h =>
      exact WF_applyN (fun acc => onPing acc s h) (fun s2 hw => hw)
        st.listeners st hwf
  | recvPingReq s d h =>
      exact WF_applyN (fun acc => onPingReq acc s d h)
        (fun s2 hw => WF_onPingReq s d h hw) st.listeners st hwf
  | recvAck s =>
      exact WF_applyN (fun acc => onAck acc s) (fun s2 hw => WF_onAck s hw)
        st.listeners st hwf
  | startEv => exact WF_start hwf
  | stopEv => exact WF_stop hwf

theorem WF_run {st : FDState} (evs : List Event) (hwf : WF st) :
    WF (run st evs) := by
  induction evs generalizing st with
  | nil => exact hwf
  | cons e tl ih => exact ih (WF_step e hwf)

/-! Counter monotonicity and frame facts for every event. -/

/-- The allocator, the virtual clock and the sequence counter never
decrease. -/
def CtrLe (a b : FDState) : Prop :=
  a.nextId ≤ b.nextId ∧ a.now ≤ b.now ∧ a.seq ≤ b.seq

theorem ctrLe_refl (a : FDState) : CtrLe a a :=
  ⟨Nat.le_refl _, Nat.le_refl _, Nat.le_refl _⟩

theorem ctrLe_trans {a b c : FDState} (h1 : CtrLe a b) (h2 : CtrLe b c) :
    CtrLe a c :=
  ⟨Nat.le_trans h1.1 h2.1, Nat.le_trans h1.2.1 h2.2.1,
    Nat.le_trans h1.2.2 h2.2.2⟩

theorem ctrLe_clearSeq (st : FDState) (s : Nat) : CtrLe st (clearSeq st s) :=
  ctrLe_refl st

theorem ctrLe_runCallback (st : FDState) (cb : Callback) :
    CtrLe st (runCallback st cb) := by
  cases cb with
  | relayAck s t => exact ctrLe_refl st
  | onBehalfAck s rq rh => exact ctrLe_refl st

theorem onAck_nextId (st : FDState) (s : Nat) :
    (onAck st s).nextId = st.nextId := by
  unfold onAck
  cases lookupA st.seqToCallback s with
  | none => rfl
  | some cb =>
      dsimp only
      cases cb with
      | relayAck s3 t3 => rfl
      | onBehalfAck s3 rq rh => rfl

theorem onAck_now (st : FDState) (s : Nat) : (onAck st s).now = st.now := by
  unfold onAck
  cases lookupA st.seqToCallback s with
  | none => rfl
  | some cb =>
      dsimp only
      cases cb with
      | relayAck s3 t3 => rfl
      | onBehalfAck s3 rq rh => rfl

theorem onAck_seq (st : FDState) (s : Nat) : (onAck st s).seq = st.seq := by
  unfold onAck
  cases lookupA st.seqToCallback s with
  | none => rfl
  | some cb =>
      dsimp only
      cases cb with
      | relayAck s3 t3 => rfl
      | onBehalfAck s3 rq rh => rfl

theorem onAck_suspects (st : FDState) (s : Nat) :
    (onAck st s).suspects = st.suspects := by
  unfold onAck
  cases lookupA st.seqToCallback s with
  | none => rfl
  | some cb =>
      dsimp only
      cases cb with
      | relayAck s3 t3 => rfl
      | onBehalfAck s3 rq rh => rfl

theorem onAck_listeners (st : FDState) (s : Nat) :
    (onAck st s).listeners = st.listeners := by
  unfold onAck
  cases lookupA st.seqToCallback s with
  | none => rfl
  | some cb =>
      dsimp only
      cases cb with
      | relayAck s3 t3 => rfl
      | onBehalfAck s3 rq rh => rfl

theorem onAck_timers_subset (st : FDState) (s : Nat) :
    ∀ t ∈ (onAck st s).timers, t ∈ st.timers := by
  unfold onAck
  cases lookupA st.seqToCallback s with
  | none => exact fun t ht => (clearSeq_timers_sublist st s).subset ht
  | some cb =>
      dsimp only
      cases cb with
      | relayAck s3 t3 =>
          dsimp only [runCallback]
          intro t ht
          exact (clearSeq_timers_sublist st s).subset
            ((clearSeq_timers_sublist (clearSeq st s) s3).subset
              ((List.filter_sublist _).subset ht))
      | onBehalfAck s3 rq rh =>
          dsimp only [runCallback, sendMessage]
          intro t ht
          exact (clearSeq_timers_sublist st s).subset
            ((clearSeq_timers_sublist (clearSeq st s) s3).subset ht)

theorem ctrLe_onAck (st : FDState) (s : Nat) : CtrLe st (onAck st s) :=
  ⟨Nat.le_of_eq (onAck_nextId st s).symm, Nat.le_of_eq (onAck_now st s).symm,
    Nat.le_of_eq (onAck_seq st s).symm⟩

theorem ctrLe_pingMember (st : FDState) (mo : Option Member) :
    CtrLe st (pingMember st mo) := by
  cases mo with
  | none => exact ctrLe_refl st
  | some m => exact ⟨Nat.le_succ _, Nat.le_refl _, Nat.le_succ _⟩

theorem ctrLe_legsFold (ms : List Member) (m : Member) (t0 : Nat)
    (st : FDState) : CtrLe st (legsFold ms m t0 st) := by
  obtain ⟨hA, _, _, _, _, _, hG, hH, _⟩ := legsFold_facts ms m t0 st
  exact ⟨hG, Nat.le_of_eq hA.symm, by omega⟩

theorem ctrLe_armSuspicion (st : FDState) (m : Member) :
    CtrLe st (armSuspicion st m) :=
  ⟨Nat.le_succ _, Nat.le_refl _, Nat.le_refl _⟩

theorem ctrLe_setTimers (st : FDState) (l : List Timer) :
    CtrLe st { st with timers := l } :=
  ⟨Nat.le_refl _, Nat.le_refl _, Nat.le_refl _⟩

theorem ctrLe_setImmediates (st : FDState) (l : List Nat) :
    CtrLe st { st with immediates := l } :=
  ⟨Nat.le_refl _, Nat.le_refl _, Nat.le_refl _⟩

theorem ctrLe_pingReq (st : FDState) (m : Member) (rs : List Member) :
    CtrLe st (pingReq st m rs) := by
  unfold pingReq
  by_cases h : rs.length = 0
  · rw [if_pos h]
    exact ctrLe_refl st
  · rw [if_neg h]
    exact ctrLe_trans (ctrLe_armSuspicion st m)
      (ctrLe_legsFold rs m st.nextId (armSuspicion st m))

theorem ctrLe_onPingReq (st : FDState) (q : Nat) (dd h : String) :
    CtrLe st (onPingReq st q dd h) :=
  ⟨Nat.le_succ _, Nat.le_refl _, Nat.le_succ _⟩

theorem ctrLe_runTimerAction (st : FDState) (i : Nat) (a : TimerAction)
    (relays : List Member) : CtrLe st (runTimerAction st i a relays) := by
  cases a with
  | suspicion m => exact ctrLe_refl st
  | pingExpiry s m =>
      exact ctrLe_trans (ctrLe_clearSeq st s) (ctrLe_pingReq _ m relays)
  | clearExpiry s => exact ctrLe_clearSeq st s

theorem ctrLe_applyN (f : FDState → FDState) (hf : ∀ s, CtrLe s (f s)) :
    ∀ (n : Nat) (st : FDState), CtrLe st (applyN n f st) := by
  intro n
  induction n with
  | zero => exact fun st => ctrLe_refl st
  | succ k ih => exact fun st => ctrLe_trans (hf st) (ih (f st))

theorem ctrLe_step (st : FDState) (e : Event) : CtrLe st (step st e) := by
  cases e with
  | advance d => exact ⟨Nat.le_refl _, Nat.le_add_right _ _, Nat.le_refl _⟩
  | fire i relays =>
      show CtrLe st (match st.timers.find? (fun t => t.id == i) with
        | none => st
        | some t =>
            if t.deadline ≤ st.now then
              runTimerAction
                { st with timers := st.timers.filter (fun u => u.id != i) }
                i t.action relays
            else st)
      cases st.timers.find? (fun t => t.id == i) with
      | none => exact ctrLe_refl st
      | some t =>
          dsimp only
          by_cases hd : t.deadline ≤ st.now
          · rw [if_pos hd]
            exact ctrLe_trans
              (ctrLe_setTimers st (st.timers.filter (fun u => u.id != i)))
              (ctrLe_runTimerAction _ i t.action relays)
          · rw [if_neg hd]
            exact ctrLe_refl st
  | intervalFire i target =>
      show CtrLe st (if st.intervals.any (fun p => p.1 == i) then
          pingMember st target else st)
      by_cases h : st.intervals.any (fun p => p.1 == i)
      · rw [if_pos h]
        exact ctrLe_pingMember st target
      · rw [if_neg h]
        exact ctrLe_refl st
  | immediateFire i target =>
      show CtrLe st (if st.immediates.contains i then
          pingMember
            { st with immediates := st.immediates.filter (fun j => j != i) }
            target
        else st)
      by_cases h : st.immediates.contains i
      · rw [if_pos h]
        exact ctrLe_trans
          (ctrLe_setImmediates st (st.immediates.filter (fun j => j != i)))
          (ctrLe_pingMember _ target)
      · rw [if_neg h]
        exact ctrLe_refl st
  | recvPing s h =>
      exact ctrLe_applyN (fun acc => onPing acc s h)
        (fun s2 => ctrLe_refl s2) st.listeners st
  | recvPingReq s d h =>
      exact ctrLe_applyN (fun acc => onPingReq acc s d h)
        (fun s2 => ctrLe_onPingReq s2 s d h) st.listeners st
  | recvAck s =>
      exact ctrLe_applyN (fun acc => onAck acc s)
        (fun s2 => ctrLe_onAck s2 s) st.listeners st
  | startEv => exact ⟨Nat.le_add_right _ 2, Nat.le_refl _, Nat.le_refl _⟩
  | stopEv => exact ctrLe_refl st

/-- Frame facts common to all three inbound handlers: the allocator only
grows, timers are old or freshly allocated, and no `Suspect` is emitted. -/
def HandlerFrame (f : FDState → FDState) : Prop :=
  ∀ s : FDState, s.nextId ≤ (f s).nextId
    ∧ (∀ t ∈ (f s).timers, t ∈ s.timers ∨ s.nextId ≤ t.id)
    ∧ (f s).suspects = s.suspects

theorem handlerFrame_applyN {f : FDState → FDState} (hf : HandlerFrame f) :
    ∀ (n : Nat) (s : FDState), s.nextId ≤ (applyN n f s).nextId
      ∧ (∀ t ∈ (applyN n f s).timers, t ∈ s.timers ∨ s.nextId ≤ t.id)
      ∧ (applyN n f s).suspects = s.suspects := by
  intro n
  induction n with
  | zero =>
      exact fun s => ⟨Nat.le_refl _, fun t ht => Or.inl ht, rfl⟩
  | succ k ih =>
      intro s
      obtain ⟨i1, i2, i3⟩ := ih (f s)
      obtain ⟨j1, j2, j3⟩ := hf s
      refine ⟨Nat.le_trans j1 i1, ?_, i3.trans j3⟩
      intro t ht
      rcases i2 t ht with h | h
      · rcases j2 t h with h2 | h2
        · exact Or.inl h2
        · exact Or.inr h2
      · exact Or.inr (Nat.le_trans j1 h)

theorem handlerFrame_onPing (s : Nat) (h : String) :
    HandlerFrame (fun acc => onPing acc s h) :=
  fun _ => ⟨Nat.le_refl _, fun _ ht => Or.inl ht, rfl⟩

theorem handlerFrame_onPingReq (q : Nat) (dd hh : String) :
    HandlerFrame (fun acc => onPingReq acc q dd hh) := by
  intro s2
  refine ⟨Nat.le_succ _, ?_, rfl⟩
  intro t ht
  have ht2 : t ∈ s2.timers ++
      [(⟨s2.nextId, s2.now + s2.pingTimeout,
        TimerAction.clearExpiry s2.seq⟩ : Timer)] := ht
  rcases List.mem_append.mp ht2 with h1 | h1
  · exact Or.inl h1
  · rcases List.mem_singleton.mp h1 with rfl
    exact Or.inr (Nat.le_refl _)

theorem handlerFrame_onAck (s : Nat) :
    HandlerFrame (fun acc => onAck acc s) :=
  fun s2 => ⟨Nat.le_of_eq (onAck_nextId s2 s).symm,
    fun t ht => Or.inl (onAck_timers_subset s2 s t ht), onAck_suspects s2 s⟩

theorem pingReq_timers_frame (st : FDState) (m : Member) (rs : List Member) :
    ∀ t ∈ (pingReq st m rs).timers, t ∈ st.timers ∨ st.nextId ≤ t.id := by
  unfold pingReq
  by_cases h : rs.length = 0
  · rw [if_pos h]
    exact fun t ht => Or.inl ht
  · rw [if_neg h]
    intro t ht
    obtain ⟨_, _, _, _, _, _, _, _, _, hJ, _, _, _⟩ :=
      legsFold_facts rs m st.nextId (armSuspicion st m)
    rcases hJ t ht with h1 | ⟨h1, _⟩
    · have h2 : t ∈ st.timers ++
          [(⟨st.nextId, st.now + st.pingReqTimeout,
            TimerAction.suspicion m⟩ : Timer)] := h1
      rcases List.mem_append.mp h2 with h3 | h3
      · exact Or.inl h3
      · rcases List.mem_singleton.mp h3 with rfl
        exact Or.inr (Nat.le_refl _)
    · right
      have : (armSuspicion st m).nextId = st.nextId + 1 := rfl
      omega

theorem pingReq_suspects_eq (st : FDState) (m : Member) (rs : List Member) :
    (pingReq st m rs).suspects = st.suspects := by
  unfold pingReq
  by_cases h : rs.length = 0
  · rw [if_pos h]
  · rw [if_neg h]
    obtain ⟨_, hB, _⟩ := legsFold_facts rs m st.nextId (armSuspicion st m)
    exact hB

theorem step_frame (st : FDState) (e : Event) :
    (∀ t ∈ (step st e).timers, t ∈ st.timers ∨ st.nextId ≤ t.id)
    ∧ ((step st e).suspects = st.suspects
       ∨ ∃ i mm, (step st e).suspects = st.suspects ++ [(i, mm)]
          ∧ ∃ u ∈ st.timers, u.id = i) := by
  cases e with
  | advance d => exact ⟨fun t ht => Or.inl ht, Or.inl rfl⟩
  | fire i relays =>
      have hstep : step st (Event.fire i relays)
          = (match st.timers.find? (fun t => t.id == i) with
            | none => st
            | some t =>
                if t.deadline ≤ st.now then
                  runTimerAction
                    { st with timers := st.timers.filter (fun u => u.id != i) }
                    i t.action relays
                else st) := rfl
      rw [hstep]
      cases hf : st.timers.find? (fun t => t.id == i) with
      | none => exact ⟨fun t ht => Or.inl ht, Or.inl rfl⟩
      | some t =>
          dsimp only
          by_cases hd : t.deadline ≤ st.now
          · rw [if_pos hd]
            have hmem := List.mem_of_find?_eq_some hf
            have hid : t.id = i := by
              have := List.find?_some hf
              simpa using this
            cases hact : t.action with
            | suspicion m =>
                dsimp only [runTimerAction]
                refine ⟨?_, ?_⟩
                · intro u hu
                  have hu2 : u ∈ st.timers.filter (fun v => v.id != i) := hu
                  exact Or.inl ((List.filter_sublist _).subset hu2)
                · right
                  exact ⟨i, m, rfl, t, hmem, hid⟩
            | pingExpiry s m =>
                dsimp only [runTimerAction]
                constructor
                · intro u hu
                  have hu2 := pingReq_timers_frame
                    (clearSeq { st with
                      timers := st.timers.filter (fun v => v.id != i) } s)
                    m relays u hu
                  rcases hu2 with h1 | h1
                  · exact Or.inl ((List.filter_sublist _).subset
                      ((clearSeq_timers_sublist _ s).subset h1))
                  · exact Or.inr h1
                · left
                  rw [pingReq_suspects_eq]
                  rfl
            | clearExpiry s =>
                dsimp only [runTimerAction]
                constructor
                · intro u hu
                  exact Or.inl ((List.filter_sublist _).subset
                    ((clearSeq_timers_sublist _ s).subset hu))
                · exact Or.inl rfl
          · rw [if_neg hd]
            exact ⟨fun u hu => Or.inl hu, Or.inl rfl⟩
  | intervalFire i target =>
      have hstep : step st (Event.intervalFire i target)
          = (if st.intervals.any (fun p => p.1 == i) then pingMember st target
            else st) := rfl
      rw [hstep]
      by_cases h : st.intervals.any (fun p => p.1 == i)
      · rw [if_pos h]
        cases target with
        | none => exact ⟨fun t ht => Or.inl ht, Or.inl rfl⟩
        | some m =>
            refine ⟨?_, Or.inl rfl⟩
            intro t ht
            have ht2 : t ∈ st.timers ++
                [(⟨st.nextId, st.now + st.pingTimeout,
                  TimerAction.pingExpiry st.seq m⟩ : Timer)] := ht
            rcases List.mem_append.mp ht2 with h1 | h1
            · exact Or.inl h1
            · rcases List.mem_singleton.mp h1 with rfl
              exact Or.inr (Nat.le_refl _)
      · rw [if_neg h]
        exact ⟨fun t ht => Or.inl ht, Or.inl rfl⟩
  | immediateFire i target =>
      have hstep : step st (Event.immediateFire i target)
          = (if st.immediates.contains i then
              pingMember
                { st with immediates := st.immediates.filter (fun j => j != i) }
                target
            else st) := rfl
      rw [hstep]
      by_cases h : st.immediates.contains i
      · rw [if_pos h]
        cases target with
        | none => exact ⟨fun t ht => Or.inl ht, Or.inl rfl⟩
        | some m =>
            refine ⟨?_, Or.inl rfl⟩
            intro t ht
            have ht2 : t ∈ st.timers ++
                [(⟨st.nextId, st.now + st.pingTimeout,
                  TimerAction.pingExpiry st.seq m⟩ : Timer)] := ht
            rcases List.mem_append.mp ht2 with h1 | h1
            · exact Or.inl h1
            · rcases List.mem_singleton.mp h1 with rfl
              exact Or.inr (Nat.le_refl _)
      · rw [if_neg h]
        exact ⟨fun t ht => Or.inl ht, Or.inl rfl⟩
  | recvPing s h =>
      obtain ⟨_, h2, h3⟩ :=
        handlerFrame_applyN (handlerFrame_onPing s h) st.listeners st
      exact ⟨h2, Or.inl h3⟩
  | recvPingReq s d h =>
      obtain ⟨_, h2, h3⟩ :=
        handlerFrame_applyN (handlerFrame_onPingReq s d h) st.listeners st
      exact ⟨h2, Or.inl h3⟩
  | recvAck s =>
      obtain ⟨_, h2, h3⟩ :=
        handlerFrame_applyN (handlerFrame_onAck s) st.listeners st
      exact ⟨h2, Or.inl h3⟩
  | startEv => exact ⟨fun t ht => Or.inl ht, Or.inl rfl⟩
  | stopEv =>
      exact ⟨fun t ht => Or.inl ((List.filter_sublist _).subset ht), Or.inl rfl⟩

/-! A timer handle that has been deallocated (absent from `timers` while
below the allocator) never comes back, and its suspicion count is frozen. -/

theorem dead_step {st : FDState} {tid : Nat} (e : Event)
    (h1 : tid < st.nextId) (h2 : tid ∉ st.timers.map Timer.id) :
    tid < (step st e).nextId
    ∧ tid ∉ (step st e).timers.map Timer.id
    ∧ countTid tid (step st e).suspects = countTid tid st.suspects := by
  obtain ⟨hfr, hsus⟩ := step_frame st e
  have hmono := (ctrLe_step st e).1
  refine ⟨by omega, ?_, ?_⟩
  · intro hmem
    obtain ⟨t, ht, htid⟩ := List.mem_map.mp hmem
    rcases hfr t ht with h3 | h3
    · exact h2 (htid ▸ List.mem_map_of_mem Timer.id h3)
    · omega
  · rcases hsus with h3 | ⟨i, mm, h3, u, hu, hui⟩
    · rw [h3]
    · rw [h3]
      unfold countTid
      rw [List.countP_append]
      have : i ≠ tid := by
        intro hit
        exact h2 (hit ▸ hui ▸ List.mem_map_of_mem Timer.id hu)
      simp [this]

theorem countTid_append_ne {tid i : Nat} (l : List (Nat × Member))
    (mm : Member) (h : i ≠ tid) :
    countTid tid (l ++ [(i, mm)]) = countTid tid l := by
  unfold countTid
  rw [List.countP_append]
  simp [h]

theorem countTid_append_self (tid : Nat) (l : List (Nat × Member))
    (mm : Member) :
    countTid tid (l ++ [(tid, mm)]) = countTid tid l + 1 := by
  unfold countTid
  rw [List.countP_append]
  simp

theorem timer_eq_of_id {l : List Timer} (hn : (l.map Timer.id).Nodup)
    {a b : Timer} (ha : a ∈ l) (hb : b ∈ l) (hid : a.id = b.id) : a = b :=
  List.inj_on_of_nodup_map hn ha hb hid

theorem dead_run {st : FDState} {tid : Nat} (evs : List Event)
    (h1 : tid < st.nextId) (h2 : tid ∉ st.timers.map Timer.id) :
    tid < (run st evs).nextId
    ∧ tid ∉ (run st evs).timers.map Timer.id
    ∧ countTid tid (run st evs).suspects = countTid tid st.suspects := by
  induction evs generalizing st with
  | nil => exact ⟨h1, h2, rfl⟩
  | cons e tl ih =>
      obtain ⟨d1, d2, d3⟩ := dead_step e h1 h2
      obtain ⟨e1, e2, e3⟩ := ih d1 d2
      exact ⟨e1, e2, e3.trans d3⟩

/-! Aggregate effect facts about `pingReq`, used by the round invariant. -/

theorem pingReq_now (st : FDState) (m : Member) (rs : List Member) :
    (pingReq st m rs).now = st.now := by
  unfold pingReq
  by_cases h : rs.length = 0
  · rw [if_pos h]
  · rw [if_neg h]
    obtain ⟨hA, _⟩ := legsFold_facts rs m st.nextId (armSuspicion st m)
    exact hA

theorem pingReq_timers_superset (st : FDState) (m : Member) (rs : List Member) :
    ∀ t ∈ st.timers, t ∈ (pingReq st m rs).timers := by
  unfold pingReq
  by_cases h : rs.length = 0
  · rw [if_pos h]
    exact fun t ht => ht
  · rw [if_neg h]
    intro t ht
    obtain ⟨_, _, _, _, _, _, _, _, hI, _⟩ :=
      legsFold_facts rs m st.nextId (armSuspicion st m)
    exact hI t (List.mem_append_left _ ht)

theorem pingReq_sTT_frame (st : FDState) (m : Member) (rs : List Member) :
    ∀ p ∈ (pingReq st m rs).seqToTimeout,
      p ∈ st.seqToTimeout ∨ st.nextId + 1 ≤ p.2 := by
  unfold pingReq
  by_cases h : rs.length = 0
  · rw [if_pos h]
    exact fun p hp => Or.inl hp
  · rw [if_neg h]
    intro p hp
    obtain ⟨_, _, _, _, _, _, _, _, _, _, hK, _, _⟩ :=
      legsFold_facts rs m st.nextId (armSuspicion st m)
    rcases hK p hp with h1 | ⟨h1, _⟩
    · exact Or.inl h1
    · right
      have h2 : (armSuspicion st m).nextId = st.nextId + 1 := rfl
      omega

theorem pingReq_sTC_frame (st : FDState) (m : Member) (rs : List Member) :
    ∀ p ∈ (pingReq st m rs).seqToCallback,
      p ∈ st.seqToCallback
      ∨ (p.2 = Callback.relayAck p.1 st.nextId ∧ st.seq ≤ p.1) := by
  unfold pingReq
  by_cases h : rs.length = 0
  · rw [if_pos h]
    exact fun p hp => Or.inl hp
  · rw [if_neg h]
    intro p hp
    obtain ⟨_, _, _, _, _, _, _, _, _, _, _, hL, _⟩ :=
      legsFold_facts rs m st.nextId (armSuspicion st m)
    rcases hL p hp with h1 | ⟨h1, h2⟩
    · exact Or.inl h1
    · exact Or.inr ⟨h2, h1⟩

theorem clearSeq_keeps_timer {st : FDState} {s : Nat} {t : Timer}
    (hmem : t ∈ st.timers) (hne : ∀ p ∈ st.seqToTimeout, p.2 ≠ t.id) :
    t ∈ (clearSeq st s).timers := by
  show t ∈ (match lookupA st.seqToTimeout s with
    | none => st.timers
    | some i => st.timers.filter (fun u => u.id != i))
  cases hl : lookupA st.seqToTimeout s with
  | none => exact hmem
  | some i =>
      dsimp only
      rw [List.mem_filter]
      refine ⟨hmem, ?_⟩
      have h2 : i ≠ t.id := hne (s, i) (lookupA_mem hl)
      simp only [bne_iff_ne, ne_eq]
      exact fun h3 => h2 h3.symm

/-! The per-round invariant for claim C1.  `tid` is the suspicion timer's
handle, `dl` its absolute deadline, `[lo, hi)` the band of sequence numbers
of the round's relay legs, `m` the probed member. -/

/-- Either the suspicion timer is still armed and its round has emitted
nothing, or it has fired, emitted exactly one `Suspect(m)` and is gone
(and the deadline has passed); in both cases the handle is allocated,
`seqToTimeout` never records it, and only the round's own legs capture
it. -/
def RoundAux (tid dl lo hi : Nat) (m : Member) (st : FDState) : Prop :=
  tid < st.nextId
  ∧ (∀ p ∈ st.seqToTimeout, p.2 ≠ tid)
  ∧ (∀ p ∈ st.seqToCallback, capIs p.2 tid = true → lo ≤ p.1 ∧ p.1 < hi)
  ∧ (((⟨tid, dl, TimerAction.suspicion m⟩ : Timer) ∈ st.timers
        ∧ countTid tid st.suspects = 0)
     ∨ (tid ∉ st.timers.map Timer.id ∧ countTid tid st.suspects = 1
        ∧ dl ≤ st.now))

def RoundInv (tid dl lo hi : Nat) (m : Member) (st : FDState) : Prop :=
  WF st ∧ RoundAux tid dl lo hi m st

theorem roundAux_clearSeq {tid dl lo hi : Nat} {m : Member} {st : FDState}
    (s : Nat) (h : RoundAux tid dl lo hi m st) :
    RoundAux tid dl lo hi m (clearSeq st s) := by
  obtain ⟨h1, h2, h3, h4⟩ := h
  refine ⟨h1, ?_, ?_, ?_⟩
  · intro p hp
    exact h2 p ((eraseA_sublist _ _).subset hp)
  · intro p hp
    exact h3 p ((eraseA_sublist _ _).subset hp)
  · rcases h4 with ⟨ha, hc⟩ | ⟨ha, hc, hn⟩
    · left
      exact ⟨clearSeq_keeps_timer ha (fun p hp => h2 p hp), hc⟩
    · right
      refine ⟨?_, hc, hn⟩
      intro hmem
      obtain ⟨u, hu, hid⟩ := List.mem_map.mp hmem
      exact ha (hid ▸ List.mem_map_of_mem Timer.id
        ((clearSeq_timers_sublist st s).subset hu))

theorem roundAux_pingReq {tid dl lo hi : Nat} {m : Member} {st : FDState}
    (m2 : Member) (rs : List Member) (h : RoundAux tid dl lo hi m st) :
    RoundAux tid dl lo hi m (pingReq st m2 rs) := by
  obtain ⟨h1, h2, h3, h4⟩ := h
  refine ⟨Nat.le_trans (Nat.succ_le_of_lt h1) (ctrLe_pingReq st m2 rs).1, ?_, ?_, ?_⟩
  · intro p hp
    rcases pingReq_sTT_frame st m2 rs p hp with hh | hh
    · exact h2 p hh
    · omega
  · intro p hp hcap
    rcases pingReq_sTC_frame st m2 rs p hp with hh | ⟨hh, _⟩
    · exact h3 p hh hcap
    · rw [hh] at hcap
      have : st.nextId = tid := by simpa [capIs] using hcap
      omega
  · rcases h4 with ⟨ha, hc⟩ | ⟨ha, hc, hn⟩
    · left
      refine ⟨pingReq_timers_superset st m2 rs _ ha, ?_⟩
      rw [pingReq_suspects_eq]
      exact hc
    · right
      refine ⟨?_, ?_, ?_⟩
      · intro hmem
        obtain ⟨u, hu, hid⟩ := List.mem_map.mp hmem
        rcases pingReq_timers_frame st m2 rs u hu with hh | hh
        · exact ha (hid ▸ List.mem_map_of_mem Timer.id hh)
        · omega
      · rw [pingReq_suspects_eq]
        exact hc
      · rw [pingReq_now]
        exact hn

theorem roundAux_pingMember {tid dl lo hi : Nat} {m : Member} {st : FDState}
    (mo : Option Member) (h : RoundAux tid dl lo hi m st) :
    RoundAux tid dl lo hi m (pingMember st mo) := by
  cases mo with
  | none => exact h
  | some m2 =>
      obtain ⟨h1, h2, h3, h4⟩ := h
      refine ⟨?_, ?_, ?_, ?_⟩
      · show tid < st.nextId + 1
        omega
      · intro p hp
        have hp2 : p ∈ insertA st.seqToTimeout st.seq st.nextId := hp
        rcases mem_insertA.mp hp2 with rfl | ⟨hh, _⟩
        · show st.nextId ≠ tid
          omega
        · exact h2 p hh
      · intro p hp hcap
        have hp2 : p ∈ st.seqToCallback := hp
        exact h3 p hp2 hcap
      · rcases h4 with ⟨ha, hc⟩ | ⟨ha, hc, hn⟩
        · left
          exact ⟨List.mem_append_left _ ha, hc⟩
        · right
          refine ⟨?_, hc, hn⟩
          intro hmem
          obtain ⟨u, hu, hid⟩ := List.mem_map.mp hmem
          have hu2 : u ∈ st.timers ++
              [(⟨st.nextId, st.now + st.pingTimeout,
                TimerAction.pingExpiry st.seq m2⟩ : Timer)] := hu
          rcases List.mem_append.mp hu2 with hh | hh
          · exact ha (hid ▸ List.mem_map_of_mem Timer.id hh)
          · rcases List.mem_singleton.mp hh with rfl
            dsimp at hid
            omega

theorem roundAux_onPing {tid dl lo hi : Nat} {m : Member} {st : FDState}
    (s : Nat) (hh : String) (h : RoundAux tid dl lo hi m st) :
    RoundAux tid dl lo hi m (onPing st s hh) := h

theorem roundAux_onPingReq {tid dl lo hi : Nat} {m : Member} {st : FDState}
    (q : Nat) (dd hh : String) (h : RoundAux tid dl lo hi m st) :
    RoundAux tid dl lo hi m (onPingReq st q dd hh) := by
  obtain ⟨h1, h2, h3, h4⟩ := h
  refine ⟨?_, ?_, ?_, ?_⟩
  · show tid < st.nextId + 1
    omega
  · intro p hp
    have hp2 : p ∈ insertA st.seqToTimeout st.seq st.nextId := hp
    rcases mem_insertA.mp hp2 with rfl | ⟨hm, _⟩
    · show st.nextId ≠ tid
      omega
    · exact h2 p hm
  · intro p hp hcap
    have hp2 : p ∈ insertA st.seqToCallback st.seq
        (Callback.onBehalfAck st.seq q hh) := hp
    rcases mem_insertA.mp hp2 with rfl | ⟨hm, _⟩
    · exact absurd hcap (by simp [capIs])
    · exact h3 p hm hcap
  · rcases h4 with ⟨ha, hc⟩ | ⟨ha, hc, hn⟩
    · left
      exact ⟨List.mem_append_left _ ha, hc⟩
    · right
      refine ⟨?_, hc, hn⟩
      intro hmem
      obtain ⟨u, hu, hid⟩ := List.mem_map.mp hmem
      have hu2 : u ∈ st.timers ++
          [(⟨st.nextId, st.now + st.pingTimeout,
            TimerAction.clearExpiry st.seq⟩ : Timer)] := hu
      rcases List.mem_append.mp hu2 with hh2 | hh2
      · exact ha (hid ▸ List.mem_map_of_mem Timer.id hh2)
      · rcases List.mem_singleton.mp hh2 with rfl
        dsimp at hid
        omega

theorem roundAux_onAck {tid dl lo hi : Nat} {m : Member} {st : FDState}
    (s : Nat) (hs : ¬(lo ≤ s ∧ s < hi)) (h : RoundAux tid dl lo hi m st) :
    RoundAux tid dl lo hi m (onAck st s) := by
  unfold onAck
  cases hl : lookupA st.seqToCallback s with
  | none => exact roundAux_clearSeq s h
  | some cb =>
      dsimp only
      have hmemcb := lookupA_mem hl
      have hcapf : capIs cb tid = false := by
        cases hcap : capIs cb tid with
        | false => rfl
        | true => exact absurd (h.2.2.1 (s, cb) hmemcb hcap) hs
      have h2 := roundAux_clearSeq s h
      cases cb with
      | relayAck s3 t3 =>
          dsimp only [runCallback]
          have h3 := roundAux_clearSeq s3 h2
          have ht3 : t3 ≠ tid := by
            simpa [capIs] using hcapf
          obtain ⟨g1, g2, g3, g4⟩ := h3
          refine ⟨g1, g2, g3, ?_⟩
          rcases g4 with ⟨ha, hc⟩ | ⟨ha, hc, hn⟩
          · left
            refine ⟨?_, hc⟩
            rw [List.mem_filter]
            refine ⟨ha, ?_⟩
            simp only [bne_iff_ne, ne_eq]
            exact fun hx => ht3 hx.symm
          · right
            refine ⟨?_, hc, hn⟩
            intro hmem
            obtain ⟨u, hu, hid⟩ := List.mem_map.mp hmem
            exact ha (hid ▸ List.mem_map_of_mem Timer.id
              ((List.filter_sublist _).subset hu))
      | onBehalfAck s3 rq rh =>
          dsimp only [runCallback, sendMessage]
          exact roundAux_clearSeq s3 h2

theorem roundAux_applyN {tid dl lo hi : Nat} {m : Member}
    {f : FDState → FDState}
    (hf : ∀ s2 : FDState, RoundAux tid dl lo hi m s2 →
      RoundAux tid dl lo hi m (f s2)) :
    ∀ (n : Nat) (st : FDState), RoundAux tid dl lo hi m st →
      RoundAux tid dl lo hi m (applyN n f st) := by
  intro n
  induction n with
  | zero => exact fun st h => h
  | succ k ih => exact fun st h => ih (f st) (hf st h)

theorem roundAux_step {tid dl lo hi : Nat} {m : Member} {st : FDState}
    (e : Event) (hwf : WF st)
    (he : ∀ s, e = Event.recvAck s → ¬(lo ≤ s ∧ s < hi))
    (h : RoundAux tid dl lo hi m st) :
    RoundAux tid dl lo hi m (step st e) := by
  obtain ⟨h1, h2, h3, h4⟩ := h
  cases e with
  | advance d =>
      refine ⟨h1, h2, h3, ?_⟩
      rcases h4 with ⟨ha, hc⟩ | ⟨ha, hc, hn⟩
      · exact Or.inl ⟨ha, hc⟩
      · right
        refine ⟨ha, hc, ?_⟩
        show dl ≤ st.now + d
        omega
  | fire i relays =>
      have hstep : step st (Event.fire i relays)
          = (match st.timers.find? (fun t => t.id == i) with
            | none => st
            | some t =>
                if t.deadline ≤ st.now then
                  runTimerAction
                    { st with timers := st.timers.filter (fun u => u.id != i) }
                    i t.action relays
                else st) := rfl
      rw [hstep]
      cases hf : st.timers.find? (fun t => t.id == i) with
      | none => exact ⟨h1, h2, h3, h4⟩
      | some t =>
          dsimp only
          by_cases hd : t.deadline ≤ st.now
          · rw [if_pos hd]
            have hmem := List.mem_of_find?_eq_some hf
            have hid : t.id = i := by simpa using List.find?_some hf
            by_cases hit : i = tid
            · rcases h4 with ⟨ha, hc⟩ | ⟨ha, hc, hn⟩
              · have hteq : t = ⟨tid, dl, TimerAction.suspicion m⟩ :=
                  timer_eq_of_id hwf.1 hmem ha (by rw [hid, hit])
                rw [hteq]
                dsimp only [runTimerAction]
                refine ⟨h1, h2, h3, ?_⟩
                right
                refine ⟨?_, ?_, ?_⟩
                · intro hmm
                  obtain ⟨u, hu, huid⟩ := List.mem_map.mp hmm
                  have hu2 := (List.mem_filter.mp hu).2
                  rw [bne_iff_ne] at hu2
                  exact hu2 (by rw [huid, hit])
                · show countTid tid (st.suspects ++ [(i, m)]) = 1
                  rw [hit, countTid_append_self, hc]
                · have : t.deadline = dl := by rw [hteq]
                  show dl ≤ st.now
                  omega
              · exact absurd ((hid.symm ▸ hit ▸ rfl : t.id = tid) ▸
                  List.mem_map_of_mem Timer.id hmem) ha
            · have hst1 : RoundAux tid dl lo hi m
                  { st with timers := st.timers.filter (fun u => u.id != i) } := by
                refine ⟨h1, h2, h3, ?_⟩
                rcases h4 with ⟨ha, hc⟩ | ⟨ha, hc, hn⟩
                · left
                  refine ⟨?_, hc⟩
                  show (⟨tid, dl, TimerAction.suspicion m⟩ : Timer)
                    ∈ st.timers.filter (fun u => u.id != i)
                  rw [List.mem_filter]
                  refine ⟨ha, ?_⟩
                  simp only [bne_iff_ne, ne_eq]
                  exact fun hx => hit hx.symm
                · right
                  refine ⟨?_, hc, hn⟩
                  intro hmm
                  obtain ⟨u, hu, huid⟩ := List.mem_map.mp hmm
                  exact ha (huid ▸ List.mem_map_of_mem Timer.id
                    ((List.filter_sublist _).subset hu))
              cases t.action with
              | suspicion m2 =>
                  dsimp only [runTimerAction]
                  obtain ⟨g1, g2, g3, g4⟩ := hst1
                  refine ⟨g1, g2, g3, ?_⟩
                  rcases g4 with ⟨ha, hc⟩ | ⟨ha, hc, hn⟩
                  · left
                    refine ⟨ha, ?_⟩
                    show countTid tid (st.suspects ++ [(i, m2)]) = 0
                    rw [countTid_append_ne _ m2 hit]
                    exact hc
                  · right
                    refine ⟨ha, ?_, hn⟩
                    show countTid tid (st.suspects ++ [(i, m2)]) = 1
                    rw [countTid_append_ne _ m2 hit]
                    exact hc
              | pingExpiry s m2 =>
                  dsimp only [runTimerAction]
                  exact roundAux_pingReq m2 relays (roundAux_clearSeq s hst1)
              | clearExpiry s =>
                  dsimp only [runTimerAction]
                  exact roundAux_clearSeq s hst1
          · rw [if_neg hd]
            exact ⟨h1, h2, h3, h4⟩
  | intervalFire i target =>
      have hstep : step st (Event.intervalFire i target)
          = (if st.intervals.any (fun p => p.1 == i) then pingMember st target
            else st) := rfl
      rw [hstep]
      by_cases hc : st.intervals.any (fun p => p.1 == i)
      · rw [if_pos hc]
        exact roundAux_pingMember target ⟨h1, h2, h3, h4⟩
      · rw [if_neg hc]
        exact ⟨h1, h2, h3, h4⟩
  | immediateFire i target =>
      have hstep : step st (Event.immediateFire i target)
          = (if st.immediates.contains i then
              pingMember
                { st with immediates := st.immediates.filter (fun j => j != i) }
                target
            else st) := rfl
      rw [hstep]
      by_cases hc : st.immediates.contains i
      · rw [if_pos hc]
        exact roundAux_pingMember target ⟨h1, h2, h3, h4⟩
      · rw [if_neg hc]
        exact ⟨h1, h2, h3, h4⟩
  | recvPing s hh =>
      exact roundAux_applyN (fun s2 h2 => roundAux_onPing s hh h2)
        st.listeners st ⟨h1, h2, h3, h4⟩
  | recvPingReq s d hh =>
      exact roundAux_applyN (fun s2 h2 => roundAux_onPingReq s d hh h2)
        st.listeners st ⟨h1, h2, h3, h4⟩
  | recvAck s =>
      have hs := he s rfl
      exact roundAux_applyN (fun s2 h2 => roundAux_onAck s hs h2)
        st.listeners st ⟨h1, h2, h3, h4⟩
  | startEv =>
      refine ⟨?_, h2, h3, h4⟩
      show tid < st.nextId + 2
      omega
  | stopEv =>
      refine ⟨h1, ?_, ?_, ?_⟩
      · intro p hp
        exact absurd hp (List.not_mem_nil p)
      · intro p hp
        exact absurd hp (List.not_mem_nil p)
      · rcases h4 with ⟨ha, hc⟩ | ⟨ha, hc, hn⟩
        · left
          refine ⟨?_, hc⟩
          show (⟨tid, dl, TimerAction.suspicion m⟩ : Timer) ∈ st.timers.filter
            (fun t => !(st.seqToTimeout.any (fun p => p.2 == t.id)))
          rw [List.mem_filter]
          refine ⟨ha, ?_⟩
          have hany : (st.seqToTimeout.any (fun p => p.2 == tid)) = false := by
            rw [List.any_eq_false]
            intro p hp
            simp [h2 p hp]
          simp [hany]
        · right
          refine ⟨?_, hc, hn⟩
          intro hmm
          obtain ⟨u, hu, huid⟩ := List.mem_map.mp hmm
          exact ha (huid ▸ List.mem_map_of_mem Timer.id
            ((List.filter_sublist _).subset hu))

theorem roundInv_step {tid dl lo hi : Nat} {m : Member} {st : FDState}
    (e : Event)
    (he : ∀ s, e = Event.recvAck s → ¬(lo ≤ s ∧ s < hi))
    (h : RoundInv tid dl lo hi m st) :
    RoundInv tid dl lo hi m (step st e) :=
  ⟨WF_step e h.1, roundAux_step e h.1 he h.2⟩

theorem roundInv_run {tid dl lo hi : Nat} {m : Member} {st : FDState}
    (evs : List Event)
    (he : ∀ s, lo ≤ s → s < hi → Event.recvAck s ∉ evs)
    (h : RoundInv tid dl lo hi m st) :
    RoundInv tid dl lo hi m (run st evs) := by
  induction evs generalizing st with
  | nil => exact h
  | cons e tl ih =>
      refine ih (fun s hlo hhi hmem => he s hlo hhi (List.mem_cons_of_mem e hmem))
        (roundInv_step e ?_ h)
      intro s hes hband
      exact he s hband.1 hband.2 (hes ▸ List.mem_cons_self e tl)

theorem legsFold_sTC_mem (ms : List Member) (m : Member) (t0 : Nat) :
    ∀ (st : FDState) (p : Nat × Callback), p ∈ st.seqToCallback →
      p.1 < st.seq → p ∈ (legsFold ms m t0 st).seqToCallback := by
  induction ms with
  | nil => exact fun st p hp _ => hp
  | cons r0 tl ih =>
      intro st p hp hlt
      rw [legsFold_cons]
      refine ih (pingReqThroughMember st m r0 t0) p ?_ ?_
      · show p ∈ insertA st.seqToCallback st.seq
          (Callback.relayAck st.seq t0)
        exact mem_insertA.mpr (Or.inr ⟨hp, by omega⟩)
      · show p.1 < st.seq + 1
        omega

theorem countTid_eq_zero_of_lt {tid : Nat} {l : List (Nat × Member)}
    (h : ∀ p ∈ l, p.1 < tid) : countTid tid l = 0 := by
  unfold countTid
  rw [List.countP_eq_zero]
  intro p hp
  have := h p hp
  simp only [beq_iff_eq]
  omega

theorem capIs_false_of_below {cb : Callback} {n : Nat}
    (h : capBelow cb n = true) : capIs cb n = false := by
  cases cb with
  | relayAck a c =>
      simp only [capBelow, decide_eq_true_eq] at h
      simp only [capIs, beq_eq_false_iff_ne, ne_eq]
      omega
  | onBehalfAck a b c => rfl

theorem pingReq_seq_of_ne (st : FDState) (m : Member) (rs : List Member)
    (hlen : rs.length ≠ 0) :
    (pingReq st m rs).seq = st.seq + rs.length := by
  unfold pingReq
  rw [if_neg hlen]
  obtain ⟨_, _, _, _, _, _, _, hH, _⟩ :=
    legsFold_facts rs m st.nextId (armSuspicion st m)
  exact hH

/-- Arming facts of a nonempty `pingReq` round: the suspicion timer is
armed with deadline `now + pingReqTimeout`, the first relay leg's callback
(sequence `st.seq`) is registered and captures the suspicion handle, and
the round invariant holds. -/
theorem pingReq_establishes (st : FDState) (m : Member)
    (relays : List Member) (hrel : relays ≠ []) (hwf : WF st) :
    RoundInv st.nextId (st.now + st.pingReqTimeout) st.seq
      (st.seq + relays.length) m (pingReq st m relays)
    ∧ ((⟨st.nextId, st.now + st.pingReqTimeout,
        TimerAction.suspicion m⟩ : Timer) ∈ (pingReq st m relays).timers)
    ∧ ((st.seq, Callback.relayAck st.seq st.nextId)
        ∈ (pingReq st m relays).seqToCallback) := by
  have hlen : relays.length ≠ 0 := by
    intro hc
    exact hrel (List.length_eq_zero.mp hc)
  have hwf2 : WF (pingReq st m relays) := WF_pingReq m relays hwf
  have harmed : (⟨st.nextId, st.now + st.pingReqTimeout,
      TimerAction.suspicion m⟩ : Timer) ∈ (pingReq st m relays).timers := by
    unfold pingReq
    rw [if_neg hlen]
    obtain ⟨_, _, _, _, _, _, _, _, hI, _⟩ :=
      legsFold_facts relays m st.nextId (armSuspicion st m)
    refine hI _ ?_
    exact List.mem_append_right _ (List.mem_singleton.mpr rfl)
  have hcbmem : (st.seq, Callback.relayAck st.seq st.nextId)
      ∈ (pingReq st m relays).seqToCallback := by
    cases relays with
    | nil => exact absurd rfl hrel
    | cons r0 tl =>
        show (st.seq, Callback.relayAck st.seq st.nextId)
          ∈ (legsFold (r0 :: tl) m st.nextId (armSuspicion st m)).seqToCallback
        rw [legsFold_cons]
        refine legsFold_sTC_mem tl m st.nextId _ _ ?_ ?_
        · show (st.seq, Callback.relayAck st.seq st.nextId)
            ∈ insertA st.seqToCallback st.seq
              (Callback.relayAck st.seq st.nextId)
          exact mem_insertA.mpr (Or.inl rfl)
        · show st.seq < st.seq + 1
          omega
  have hlt : st.nextId < (pingReq st m relays).nextId :=
    hwf2.2.1 _ harmed
  refine ⟨⟨hwf2, hlt, ?_, ?_, ?_⟩, harmed, hcbmem⟩
  · intro p hp
    rcases pingReq_sTT_frame st m relays p hp with hh | hh
    · have := hwf.2.2.1 p hh
      omega
    · omega
  · intro p hp hcap
    rcases pingReq_sTC_frame st m relays p hp with hh | ⟨hh, hge⟩
    · rw [capIs_false_of_below (hwf.2.2.2.1 p hh)] at hcap
      exact absurd hcap (by simp)
    · refine ⟨hge, ?_⟩
      have h8 := hwf2.2.2.2.2.2.1.2 p hp
      rw [pingReq_seq_of_ne st m relays hlen] at h8
      exact h8
  · left
    refine ⟨harmed, ?_⟩
    rw [pingReq_suspects_eq]
    exact countTid_eq_zero_of_lt hwf.2.2.2.2.2.2

theorem find?_timer_eq_some {l : List Timer} (hn : (l.map Timer.id).Nodup)
    {t : Timer} {i : Nat} (hmem : t ∈ l) (ht : t.id = i) :
    l.find? (fun u => u.id == i) = some t := by
  induction l with
  | nil => cases hmem
  | cons a tl ih =>
      rw [List.map_cons, List.nodup_cons] at hn
      by_cases ha : a.id = i
      · have heq : a = t := by
          rcases List.mem_cons.mp hmem with h | htl
          · exact h.symm
          · exact absurd ((ha.trans ht.symm) ▸ List.mem_map_of_mem Timer.id htl)
              hn.1
        rw [List.find?_cons_of_pos _ (by simp [ha])]
        rw [heq]
      · rcases List.mem_cons.mp hmem with h | htl
        · exact absurd (h ▸ ht) ha
        · rw [List.find?_cons_of_neg _ (by simp [ha])]
          exact ih hn.2 htl

theorem find?_timer_eq_none {l : List Timer} {i : Nat}
    (h : i ∉ l.map Timer.id) :
    l.find? (fun u => u.id == i) = none := by
  rw [List.find?_eq_none]
  intro u hu
  simp only [beq_iff_eq]
  intro heq
  exact h (heq ▸ List.mem_map_of_mem Timer.id hu)

theorem dead_applyN {f : FDState → FDState} {tid : Nat}
    (hf : HandlerFrame f) (n : Nat) (s2 : FDState) (h1 : tid < s2.nextId)
    (h2 : tid ∉ s2.timers.map Timer.id) :
    tid < (applyN n f s2).nextId
    ∧ tid ∉ (applyN n f s2).timers.map Timer.id
    ∧ (applyN n f s2).suspects = s2.suspects := by
  obtain ⟨m1, m2, m3⟩ := handlerFrame_applyN hf n s2
  refine ⟨by omega, ?_, m3⟩
  intro hmm
  obtain ⟨u, hu, huid⟩ := List.mem_map.mp hmm
  rcases m2 u hu with h | h
  · exact h2 (huid ▸ List.mem_map_of_mem Timer.id h)
  · omega

/-- C1: an indirect-probe round `pingReq(member)` with at least one relay
peer arms one suspicion timer (handle `st.nextId`, deadline
`pingReqTimeout` from now) whose firing emits `Suspect(member)`, and
registers for each relay leg a completion callback capturing that handle
(shown for the first leg, sequence `st.seq`).  Along any subsequent event
trace in which no Ack arrives for any of the round's relay-leg sequences
(`st.seq ≤ s < st.seq + relays.length`), the round is either still armed
with zero emissions or has emitted exactly one `Suspect` — so once the
deadline has elapsed, firing the timer (however often the environment
retries) leaves exactly one emission for this round.  Conversely, while the
deadline has not yet been reached (so the timer cannot have fired), the
arrival of one Ack for a relay leg whose callback is still registered
cancels the suspicion timer, and no `Suspect` is ever emitted for this
round, whatever happens afterwards. -/
theorem pingReq_suspect_round (st : FDState) (member : Member)
    (relays : List Member) (evs : List Event)
    (hrel : relays ≠ [])
    (hwf : WF st)
    (hnoack : ∀ s, st.seq ≤ s → s < st.seq + relays.length →
      Event.recvAck s ∉ evs) :
    ((⟨st.nextId, st.now + st.pingReqTimeout,
        TimerAction.suspicion member⟩ : Timer)
        ∈ (pingReq st member relays).timers)
    ∧ ((st.seq, Callback.relayAck st.seq st.nextId)
        ∈ (pingReq st member relays).seqToCallback)
    ∧ ((((⟨st.nextId, st.now + st.pingReqTimeout,
          TimerAction.suspicion member⟩ : Timer)
          ∈ (run (pingReq st member relays) evs).timers)
        ∧ countTid st.nextId (run (pingReq st member relays) evs).suspects = 0)
       ∨ (st.nextId ∉ (run (pingReq st member relays) evs).timers.map Timer.id
          ∧ countTid st.nextId (run (pingReq st member relays) evs).suspects = 1
          ∧ st.now + st.pingReqTimeout
              ≤ (run (pingReq st member relays) evs).now))
    ∧ (st.now + st.pingReqTimeout ≤ (run (pingReq st member relays) evs).now →
        ∀ rs2, countTid st.nextId
          (step (run (pingReq st member relays) evs)
            (Event.fire st.nextId rs2)).suspects = 1)
    ∧ ((run (pingReq st member relays) evs).now
          < st.now + st.pingReqTimeout →
        ∀ s, (s, Callback.relayAck s st.nextId)
            ∈ (run (pingReq st member relays) evs).seqToCallback →
        1 ≤ (run (pingReq st member relays) evs).listeners →
        ∀ post, countTid st.nextId
          (run (step (run (pingReq st member relays) evs)
            (Event.recvAck s)) post).suspects = 0) := by
  obtain ⟨hInv0, harmed, hcb⟩ := pingReq_establishes st member relays hrel hwf
  have hInv := roundInv_run evs hnoack hInv0
  refine ⟨harmed, hcb, hInv.2.2.2.2, ?_, ?_⟩
  · intro hdl rs2
    rcases hInv.2.2.2.2 with ⟨harm, hcnt⟩ | ⟨hdeadf, hcnt, _⟩
    · have hfind : (run (pingReq st member relays) evs).timers.find?
          (fun u => u.id == st.nextId)
          = some ⟨st.nextId, st.now + st.pingReqTimeout,
              TimerAction.suspicion member⟩ :=
        find?_timer_eq_some hInv.1.1 harm rfl
      have hstep3 : step (run (pingReq st member relays) evs)
          (Event.fire st.nextId rs2)
          = (match (run (pingReq st member relays) evs).timers.find?
              (fun u => u.id == st.nextId) with
            | none => run (pingReq st member relays) evs
            | some t =>
                if t.deadline ≤ (run (pingReq st member relays) evs).now then
                  runTimerAction
                    { run (pingReq st member relays) evs with
                      timers := (run (pingReq st member relays) evs).timers.filter
                        (fun u => u.id != st.nextId) }
                    st.nextId t.action rs2
                else run (pingReq st member relays) evs) := rfl
      rw [hstep3, hfind]
      dsimp only
      rw [if_pos hdl]
      dsimp only [runTimerAction]
      rw [countTid_append_self]
      rw [hcnt]
    · have hfind : (run (pingReq st member relays) evs).timers.find?
          (fun u => u.id == st.nextId) = none :=
        find?_timer_eq_none hdeadf
      have hstep3 : step (run (pingReq st member relays) evs)
          (Event.fire st.nextId rs2)
          = (match (run (pingReq st member relays) evs).timers.find?
              (fun u => u.id == st.nextId) with
            | none => run (pingReq st member relays) evs
            | some t =>
                if t.deadline ≤ (run (pingReq st member relays) evs).now then
                  runTimerAction
                    { run (pingReq st member relays) evs with
                      timers := (run (pingReq st member relays) evs).timers.filter
                        (fun u => u.id != st.nextId) }
                    st.nextId t.action rs2
                else run (pingReq st member relays) evs) := rfl
      rw [hstep3, hfind]
      exact hcnt
  · intro hlt s hcbmem hlis post
    have hcnt0 : countTid st.nextId
        (run (pingReq st member relays) evs).suspects = 0 := by
      rcases hInv.2.2.2.2 with ⟨_, hcnt⟩ | ⟨_, _, hn⟩
      · exact hcnt
      · omega
    have hlk : lookupA (run (pingReq st member relays) evs).seqToCallback s
        = some (Callback.relayAck s st.nextId) :=
      lookupA_of_mem_nodup hcbmem hInv.1.2.2.2.2.1.2
    have h1 : onAck (run (pingReq st member relays) evs) s
        = runCallback (clearSeq (run (pingReq st member relays) evs) s)
            (Callback.relayAck s st.nextId) := by
      unfold onAck
      rw [hlk]
    have htid1 : st.nextId < (onAck (run (pingReq st member relays) evs) s).nextId := by
      rw [onAck_nextId]
      exact hInv.2.1
    have hdead1 : st.nextId
        ∉ (onAck (run (pingReq st member relays) evs) s).timers.map Timer.id := by
      rw [h1]
      intro hmm
      dsimp only [runCallback] at hmm
      obtain ⟨u, hu, huid⟩ := List.mem_map.mp hmm
      have hu2 := (List.mem_filter.mp hu).2
      rw [bne_iff_ne] at hu2
      exact hu2 huid
    have hsus1 : (onAck (run (pingReq st member relays) evs) s).suspects
        = (run (pingReq st member relays) evs).suspects :=
      onAck_suspects _ s
    have hstep2 : step (run (pingReq st member relays) evs) (Event.recvAck s)
        = applyN (run (pingReq st member relays) evs).listeners
            (fun acc => onAck acc s) (run (pingReq st member relays) evs) := rfl
    obtain ⟨k, hk⟩ : ∃ k, (run (pingReq st member relays) evs).listeners = k + 1 :=
      ⟨(run (pingReq st member relays) evs).listeners - 1, by omega⟩
    rw [hstep2, hk]
    have happ : applyN (k + 1) (fun acc => onAck acc s)
        (run (pingReq st member relays) evs)
        = applyN k (fun acc => onAck acc s)
            (onAck (run (pingReq st member relays) evs) s) := rfl
    rw [happ]
    obtain ⟨a1, a2, a3⟩ := dead_applyN (handlerFrame_onAck s) k
      (onAck (run (pingReq st member relays) evs) s) htid1 hdead1
    obtain ⟨_, _, b3⟩ := dead_run post a1 a2
    rw [b3]
    unfold countTid
    rw [a3, hsus1]
    exact hcnt0

/-- Witness for C1 on the constructed detector: probing `memberM` through
the single relay `memberR`, with the ack-free trace `[advance 12]`; when
the due suspicion timer (handle 0, deadline 12) then fires, exactly one
`Suspect` has been emitted for the round. -/
theorem pingReq_suspect_round_witness :
    ((⟨0, 12, TimerAction.suspicion memberM⟩ : Timer)
        ∈ (pingReq st0 memberM [memberR]).timers)
    ∧ countTid 0 (step (run (pingReq st0 memberM [memberR])
        [Event.advance 12]) (Event.fire 0 [])).suspects = 1 := by
  have h := pingReq_suspect_round st0 memberM [memberR] [Event.advance 12]
    (by decide) (by unfold WF; decide)
    (by
      intro s _ _ hmem
      simp at hmem)
  exact ⟨h.1, h.2.2.2.1 (by decide) []⟩

/-! C2: what `stop` does and does not drain. -/

/-- C2 counterexample, refuting both halves of the claim.  First half: on
the constructed detector, `pingReq` arms a suspicion round through one
relay; `stop()` is then invoked, yet when the suspicion timer's deadline
later elapses and it fires, `Suspect(memberM)` is emitted — a timer armed
before `stop()` fires its callback afterwards, because the round-level
suspicion timer handle lives only in closures and is never recorded in
`seqToTimeout`, which is all `stop()` clears.  Second half: `stop()` right
after `start()` does not cancel the probe `setImmediate` scheduled by
`tick()`; when that immediate later runs (no new `start` intervening), a
Ping is still sent. -/
theorem stop_leaves_suspicion_timer_cex :
    (pingReq st0 memberM [memberR]).suspects = []
    ∧ (run (pingReq st0 memberM [memberR])
        [Event.stopEv, Event.advance 12, Event.fire 0 []]).suspects
      = [(0, memberM)]
    ∧ (stop (start st0)).outbox = []
    ∧ (run (stop (start st0)) [Event.immediateFire 0 (some memberM)]).outbox
      = [(Message.ping 0 hostA, hostM)] := by
  refine ⟨rfl, rfl, rfl, rfl⟩

/-- After `stop` (and before any `start`): no handler registration, no
repeating interval, no pending immediate, and every remaining timer is a
round-level suspicion timer. -/
def Quiet (st : FDState) : Prop :=
  st.listeners = 0 ∧ st.intervals = [] ∧ st.immediates = []
  ∧ ∀ t ∈ st.timers, ∃ m2, t.action = TimerAction.suspicion m2

theorem quiet_step {st : FDState} (e : Event) (hne : e ≠ Event.startEv)
    (h : Quiet st) : Quiet (step st e) ∧ (step st e).outbox = st.outbox := by
  obtain ⟨q1, q2, q3, q4⟩ := h
  cases e with
  | advance d => exact ⟨⟨q1, q2, q3, q4⟩, rfl⟩
  | fire i relays =>
      have hstep : step st (Event.fire i relays)
          = (match st.timers.find? (fun t => t.id == i) with
            | none => st
            | some t =>
                if t.deadline ≤ st.now then
                  runTimerAction
                    { st with timers := st.timers.filter (fun u => u.id != i) }
                    i t.action relays
                else st) := rfl
      rw [hstep]
      cases hf : st.timers.find? (fun t => t.id == i) with
      | none => exact ⟨⟨q1, q2, q3, q4⟩, rfl⟩
      | some t =>
          dsimp only
          by_cases hd : t.deadline ≤ st.now
          · rw [if_pos hd]
            obtain ⟨m2, hact⟩ := q4 t (List.mem_of_find?_eq_some hf)
            rw [hact]
            dsimp only [runTimerAction]
            refine ⟨⟨q1, q2, q3, ?_⟩, rfl⟩
            intro u hu
            exact q4 u ((List.filter_sublist _).subset hu)
          · rw [if_neg hd]
            exact ⟨⟨q1, q2, q3, q4⟩, rfl⟩
  | intervalFire i target =>
      have hstep : step st (Event.intervalFire i target)
          = (if st.intervals.any (fun p => p.1 == i) then pingMember st target
            else st) := rfl
      rw [hstep, q2]
      rw [if_neg (by simp)]
      exact ⟨⟨q1, q2, q3, q4⟩, rfl⟩
  | immediateFire i target =>
      have hstep : step st (Event.immediateFire i target)
          = (if st.immediates.contains i then
              pingMember
                { st with immediates := st.immediates.filter (fun j => j != i) }
                target
            else st) := rfl
      rw [hstep, q3]
      rw [if_neg (by simp)]
      exact ⟨⟨q1, q2, q3, q4⟩, rfl⟩
  | recvPing s hh =>
      have hstep : step st (Event.recvPing s hh)
          = applyN st.listeners (fun acc => onPing acc s hh) st := rfl
      rw [hstep, q1]
      exact ⟨⟨q1, q2, q3, q4⟩, rfl⟩
  | recvPingReq s d hh =>
      have hstep : step st (Event.recvPingReq s d hh)
          = applyN st.listeners (fun acc => onPingReq acc s d hh) st := rfl
      rw [hstep, q1]
      exact ⟨⟨q1, q2, q3, q4⟩, rfl⟩
  | recvAck s =>
      have hstep : step st (Event.recvAck s)
          = applyN st.listeners (fun acc => onAck acc s) st := rfl
      rw [hstep, q1]
      exact ⟨⟨q1, q2, q3, q4⟩, rfl⟩
  | startEv => exact absurd rfl hne
  | stopEv =>
      refine ⟨⟨?_, ?_, q3, ?_⟩, rfl⟩
      · show st.listeners - 1 = 0
        omega
      · show (match st.tickHandle with
          | none => st.intervals
          | some i => st.intervals.filter (fun p => p.1 != i)) = []
        cases st.tickHandle with
        | none => exact q2
        | some i =>
            rw [q2]
            rfl
      · intro t ht
        exact q4 t ((List.filter_sublist _).subset ht)

theorem quiet_run {st : FDState} (evs : List Event)
    (hne : Event.startEv ∉ evs) (h : Quiet st) :
    Quiet (run st evs) ∧ (run st evs).outbox = st.outbox := by
  induction evs generalizing st with
  | nil => exact ⟨h, rfl⟩
  | cons e tl ih =>
      have hne1 : e ≠ Event.startEv := by
        intro hc
        exact hne (hc ▸ List.mem_cons_self e tl)
      obtain ⟨k1, k2⟩ := quiet_step e hne1 h
      obtain ⟨l1, l2⟩ := ih (fun hc => hne (List.mem_cons_of_mem e hc)) k1
      exact ⟨l1, l2.trans k2⟩

/-- C2 amended: `stop()` empties the correlation table without invoking
anything (no message sent, no signal emitted by `stop` itself), cancels
every timer the table records, unregisters the handlers and cancels the
tracked interval; but it drains ONLY those.  Two things armed before
`stop()` survive it (both exhibited by the counterexample): a pending
round-level suspicion timer (its handle lives only in closures, never in
`seqToTimeout`), which can still fire and emit `Suspect` afterwards; and a
probe `setImmediate` scheduled by `start()`'s `tick()`, which `stop()`
never cancels and which can still run afterwards, send a Ping, and restart
the probe cascade.  Consequently the no-further-messages guarantee holds
exactly under the proviso that the start-scheduled immediate has already
run (`immediates = []`): from a once-started detector (`listeners = 1`,
only the tracked interval pending, every timer either a suspicion timer or
correlation-recorded), after `stop()` no further Ping, PingReq or Ack
message is ever sent until a new `start`. -/
theorem stop_drains_correlation_only (st : FDState) (evs : List Event)
    (hl : st.listeners = 1)
    (hint : ∀ p ∈ st.intervals, st.tickHandle = some p.1)
    (himm : st.immediates = [])
    (htm : ∀ t ∈ st.timers, (∃ m2, t.action = TimerAction.suspicion m2)
      ∨ ∃ s, (s, t.id) ∈ st.seqToTimeout)
    (hks : Event.startEv ∉ evs) :
    (stop st).seqToTimeout = []
    ∧ (stop st).seqToCallback = []
    ∧ (stop st).outbox = st.outbox
    ∧ (stop st).suspects = st.suspects
    ∧ (∀ p ∈ st.seqToTimeout, p.2 ∉ (stop st).timers.map Timer.id)
    ∧ Quiet (stop st)
    ∧ (run (stop st) evs).outbox = st.outbox := by
  have hq : Quiet (stop st) := by
    refine ⟨?_, ?_, himm, ?_⟩
    · show st.listeners - 1 = 0
      omega
    · show (match st.tickHandle with
        | none => st.intervals
        | some i => st.intervals.filter (fun p => p.1 != i)) = []
      cases hc : st.tickHandle with
      | none =>
          cases hi : st.intervals with
          | nil => rfl
          | cons p l =>
              have := hint p (hi ▸ List.mem_cons_self p l)
              rw [hc] at this
              cases this
      | some i =>
          dsimp only
          rw [List.filter_eq_nil_iff]
          intro p hp
          have := hint p hp
          rw [hc] at this
          have hpi : p.1 = i := by
            injection this with hx
            exact hx.symm
          simp [hpi]
    · intro t ht
      have ht2 := List.mem_filter.mp ht
      rcases htm t ht2.1 with hsusp | ⟨s, hmem⟩
      · exact hsusp
      · exfalso
        have hany : (st.seqToTimeout.any (fun p => p.2 == t.id)) = true := by
          rw [List.any_eq_true]
          exact ⟨(s, t.id), hmem, by simp⟩
        rw [hany] at ht2
        exact absurd ht2.2 (by simp)
  refine ⟨rfl, rfl, rfl, rfl, ?_, hq, ?_⟩
  · intro p hp hmm
    obtain ⟨u, hu, huid⟩ := List.mem_map.mp hmm
    have hu2 := (List.mem_filter.mp hu).2
    have hany : (st.seqToTimeout.any (fun q => q.2 == u.id)) = true := by
      rw [List.any_eq_true]
      exact ⟨p, hp, by simp [huid]⟩
    rw [hany] at hu2
    exact absurd hu2 (by simp)
  · exact (quiet_run evs hks hq).2

/-- A concrete stopped-detector scenario for the amended C2 theorem:
one handler registration, one tracked interval, a suspicion timer and a
correlation-recorded relay-leg timer pending. -/
def stC2W : FDState :=
  { st0 with
    listeners := 1
    tickHandle := some 5
    intervals := [(5, 20)]
    timers := [⟨0, 12, TimerAction.suspicion memberM⟩,
      ⟨1, 12, TimerAction.clearExpiry 0⟩]
    seqToTimeout := [(0, 1)]
    seqToCallback := [(0, Callback.relayAck 0 0)]
    nextId := 6
    seq := 1 }

/-- Witness for the amended C2 theorem at `stC2W` with the post-stop trace
`[advance 12, fire 0 []]` (the surviving suspicion timer fires, sending
nothing). -/
theorem stop_drains_correlation_only_witness :
    (stop stC2W).seqToTimeout = []
    ∧ (stop stC2W).seqToCallback = []
    ∧ (stop stC2W).outbox = stC2W.outbox
    ∧ Quiet (stop stC2W)
    ∧ (run (stop stC2W) [Event.advance 12, Event.fire 0 []]).outbox
        = stC2W.outbox := by
  have h := stop_drains_correlation_only stC2W
    [Event.advance 12, Event.fire 0 []] rfl (by decide) rfl
    (by
      intro t ht
      simp only [stC2W] at ht
      rcases List.mem_cons.mp ht with rfl | ht2
      · exact Or.inl ⟨memberM, rfl⟩
      · rcases List.mem_cons.mp ht2 with rfl | ht3
        · exact Or.inr ⟨0, by decide⟩
        · cases ht3)
    (by decide)
  exact ⟨h.1, h.2.1, h.2.2.1, h.2.2.2.2.2.1, h.2.2.2.2.2.2⟩

/-! C3: the direct-probe timeout escalates to exactly one indirect probe. -/

theorem pingReq_sTT_keys (st : FDState) (m : Member) (rs : List Member) :
    ∀ p ∈ (pingReq st m rs).seqToTimeout,
      p ∈ st.seqToTimeout ∨ st.seq ≤ p.1 := by
  unfold pingReq
  by_cases h : rs.length = 0
  · rw [if_pos h]
    exact fun p hp => Or.inl hp
  · rw [if_neg h]
    intro p hp
    obtain ⟨_, _, _, _, _, _, _, _, _, _, hK, _, _⟩ :=
      legsFold_facts rs m st.nextId (armSuspicion st m)
    rcases hK p hp with h1 | ⟨_, h1⟩
    · exact Or.inl h1
    · exact Or.inr h1

theorem pingReq_outbox (st : FDState) (m : Member) (rs : List Member) :
    ∃ l2, (pingReq st m rs).outbox = st.outbox ++ l2
      ∧ ∀ x ∈ l2, ∃ a b c d2, x = (Message.pingReqM a b c, d2) := by
  unfold pingReq
  by_cases h : rs.length = 0
  · rw [if_pos h]
    exact ⟨[], by simp, by simp⟩
  · rw [if_neg h]
    obtain ⟨_, _, _, _, _, _, _, _, _, _, _, _, hM⟩ :=
      legsFold_facts rs m st.nextId (armSuspicion st m)
    exact hM

/-- C3: `pingMember(member)` arms exactly one direct-probe timer (handle
`st.nextId`, deadline `pingTimeout` from now) recorded in the correlation
table at the probe's sequence `st.seq`.  When, in any later state `st2`,
that timer is still pending (found under its handle) and its deadline has
elapsed, firing it performs precisely `clearSeq` of the probe's sequence
followed by one invocation of the indirect-probe workflow
`pingReq member` — the equation exhibits the exact order and the single
invocation — after which the probe's sequence is absent from the
correlation table, and every message the timeout handler sent is a
PingReq: the direct Ping is never retried. -/
theorem pingMember_timeout_escalates (st st2 : FDState) (m : Member)
    (rs : List Member)
    (hfound : st2.timers.find? (fun u => u.id == st.nextId)
        = some ⟨st.nextId, st.now + st.pingTimeout,
            TimerAction.pingExpiry st.seq m⟩)
    (hdl : st.now + st.pingTimeout ≤ st2.now)
    (hseq : st.seq < st2.seq) :
    ((pingMember st (some m)).timers
      = st.timers ++ [⟨st.nextId, st.now + st.pingTimeout,
          TimerAction.pingExpiry st.seq m⟩])
    ∧ ((st.seq, st.nextId) ∈ (pingMember st (some m)).seqToTimeout)
    ∧ (step st2 (Event.fire st.nextId rs)
        = pingReq (clearSeq
            { st2 with timers := st2.timers.filter (fun u => u.id != st.nextId) }
            st.seq) m rs)
    ∧ (lookupA (step st2 (Event.fire st.nextId rs)).seqToTimeout st.seq = none)
    ∧ (∃ l2, (step st2 (Event.fire st.nextId rs)).outbox = st2.outbox ++ l2
        ∧ ∀ x ∈ l2, ∃ a b c d2, x = (Message.pingReqM a b c, d2)) := by
  have hstep : step st2 (Event.fire st.nextId rs)
      = (match st2.timers.find? (fun u => u.id == st.nextId) with
        | none => st2
        | some t =>
            if t.deadline ≤ st2.now then
              runTimerAction
                { st2 with
                  timers := st2.timers.filter (fun u => u.id != st.nextId) }
                st.nextId t.action rs
            else st2) := rfl
  have heq : step st2 (Event.fire st.nextId rs)
      = pingReq (clearSeq
          { st2 with timers := st2.timers.filter (fun u => u.id != st.nextId) }
          st.seq) m rs := by
    rw [hstep, hfound]
    dsimp only
    rw [if_pos hdl]
    rfl
  refine ⟨rfl, mem_insertA.mpr (Or.inl rfl), heq, ?_, ?_⟩
  · rw [heq]
    rw [lookupA_eq_none_iff]
    intro p hp
    rcases pingReq_sTT_keys _ m rs p hp with h1 | h1
    · exact (mem_eraseA.mp h1).2
    · have h2 : (clearSeq { st2 with
          timers := st2.timers.filter (fun u => u.id != st.nextId) }
          st.seq).seq = st2.seq := rfl
      omega
  · rw [heq]
    obtain ⟨l2, hl2, hall⟩ := pingReq_outbox
      (clearSeq { st2 with
        timers := st2.timers.filter (fun u => u.id != st.nextId) } st.seq) m rs
    exact ⟨l2, hl2, hall⟩

/-- Witness for C3 on the constructed detector: probe `memberM`, advance
past the `pingTimeout` deadline, fire the probe timer with one relay
available. -/
theorem pingMember_timeout_escalates_witness :
    ((pingMember st0 (some memberM)).timers
      = st0.timers ++ [⟨0, 4, TimerAction.pingExpiry 0 memberM⟩])
    ∧ ((0, 0) ∈ (pingMember st0 (some memberM)).seqToTimeout)
    ∧ (step (run (pingMember st0 (some memberM)) [Event.advance 4])
          (Event.fire 0 [memberR])
        = pingReq (clearSeq
            { run (pingMember st0 (some memberM)) [Event.advance 4] with
              timers := (run (pingMember st0 (some memberM))
                [Event.advance 4]).timers.filter (fun u => u.id != 0) }
            0) memberM [memberR])
    ∧ (lookupA (step (run (pingMember st0 (some memberM)) [Event.advance 4])
          (Event.fire 0 [memberR])).seqToTimeout 0 = none) := by
  have h := pingMember_timeout_escalates st0
    (run (pingMember st0 (some memberM)) [Event.advance 4]) memberM [memberR]
    (by decide) (by decide) (by decide)
  exact ⟨h.1, h.2.1, h.2.2.1, h.2.2.2.1⟩

/-! C6: sequence-number allocation. -/

theorem ctrLe_run (st : FDState) (evs : List Event) :
    CtrLe st (run st evs) := by
  induction evs generalizing st with
  | nil => exact ctrLe_refl st
  | cons e tl ih => exact ctrLe_trans (ctrLe_step st e) (ih (step st e))

/-- C6: in a well-formed state every pending correlation key is strictly
below the sequence counter, so the counter value `st.seq` — which is
exactly what each of the three allocation sites (`pingMember`,
`pingReqThroughMember`, `onPingReq`) assigns to its new transaction before
bumping the counter by one — is fresh: it is not a key of `seqToTimeout`
or `seqToCallback`.  The counter never decreases under any event, so each
later allocation yields a strictly greater value than every earlier one,
and a sequence is never reassigned while a transaction with it is pending;
well-formedness is preserved by every event. -/
theorem seq_alloc_monotone_fresh (st : FDState) (m r : Member) (t0 q : Nat)
    (dd hh : String) (e : Event) (evs : List Event) (hwf : WF st) :
    ((pingMember st (some m)).seq = st.seq + 1
      ∧ (st.seq, st.nextId) ∈ (pingMember st (some m)).seqToTimeout)
    ∧ (pingReqThroughMember st m r t0).seq = st.seq + 1
    ∧ (onPingReq st q dd hh).seq = st.seq + 1
    ∧ lookupA st.seqToTimeout st.seq = none
    ∧ lookupA st.seqToCallback st.seq = none
    ∧ st.seq ≤ (step st e).seq
    ∧ st.seq ≤ (run st evs).seq
    ∧ WF (step st e) := by
  refine ⟨⟨rfl, mem_insertA.mpr (Or.inl rfl)⟩, rfl, rfl, ?_, ?_,
    (ctrLe_step st e).2.2, (ctrLe_run st evs).2.2, WF_step e hwf⟩
  · rw [lookupA_eq_none_iff]
    intro p hp
    have := hwf.2.2.2.2.2.1.1 p hp
    omega
  · rw [lookupA_eq_none_iff]
    intro p hp
    have := hwf.2.2.2.2.2.1.2 p hp
    omega

/-- Witness for C6 on the constructed detector. -/
theorem seq_alloc_monotone_fresh_witness :
    ((pingMember st0 (some memberM)).seq = st0.seq + 1
      ∧ (st0.seq, st0.nextId) ∈ (pingMember st0 (some memberM)).seqToTimeout)
    ∧ (pingReqThroughMember st0 memberM memberR 0).seq = st0.seq + 1
    ∧ (onPingReq st0 7 hostDst hostRelay).seq = st0.seq + 1
    ∧ lookupA st0.seqToTimeout st0.seq = none
    ∧ lookupA st0.seqToCallback st0.seq = none
    ∧ st0.seq ≤ (step st0 Event.startEv).seq
    ∧ st0.seq ≤ (run st0 [Event.startEv]).seq
    ∧ WF (step st0 Event.startEv) := by
  exact seq_alloc_monotone_fresh st0 memberM memberR 0 7 hostDst hostRelay
    Event.startEv [Event.startEv] (by unfold WF; decide)

end Swim
